import Mathlib

/-!
# Verification of the BadgerDB buffer manager (`src/buffer.cpp`)

This file shallowly embeds the `BufMgr` class of `src/buffer.cpp` — a
clock-replacement buffer pool manager — and proves properties of its
operations `allocBuf`, `readPage`, `unPinPage`, `flushFile`, `allocPage`
and `disposePage`.

Modelling decisions:
* A `File*` is modelled as a file identity of type `Nat`; the null pointer
  stored in a cleared frame descriptor is `Option.none`.
* The file collaborator is external: its responses (`readPage` content,
  `allocatePage` result) are inputs of the embedded operations, and the
  calls issued against it are recorded in an event trace (`FileOp`).
* C++ exceptions become an explicit result type `Res`; the pool state at
  the moment an exception is raised is the state the caller observes,
  exactly as in C++ (no rollback).
* The clock scan of `allocBuf` is a fuel-bounded recursion; the fuel is
  `2 * numBufs`, i.e. the hand may step at most twice around the pool.
  Fuel exhaustion is represented by `Option.none` and is proved
  unreachable.
-/

/-- A disk page: its embedded page number plus opaque content. -/
structure Page where
  page_number : Nat
  data : Nat
deriving DecidableEq

/-- Frame descriptor (`BufDesc`).  Modelled from the spec: `buffer.h` is not
in the repository; the fields follow spec section 3.  `file = none` is the
null owner pointer of an unused frame; a cleared frame's page number is 0
(the invalid page number). -/
structure BufDesc where
  file : Option Nat
  pageNo : Nat
  valid : Bool
  refbit : Bool
  dirty : Bool
  pinCnt : Nat
deriving DecidableEq

/-- `BufDesc::Clear()`.  Modelled from the spec: clear the descriptor
(unset valid, dirty, ref bit, pin count, owner, page number). -/
def BufDesc.clear : BufDesc :=
  { file := none, pageNo := 0, valid := false, refbit := false,
    dirty := false, pinCnt := 0 }

/-- `BufDesc::Set(file, pageNo)`.  Modelled from the spec: set the frame
descriptor with `valid = true`, `dirty = false`, `pin count = 1`,
`ref bit = 1`, owner and page number set. -/
def BufDesc.set (f : Nat) (p : Nat) : BufDesc :=
  { file := some f, pageNo := p, valid := true, refbit := true,
    dirty := false, pinCnt := 1 }

/-- The errors (exceptions) raised by `BufMgr`, with the constructor
arguments `buffer.cpp` passes to them. -/
inductive BufError where
  | bufferExceeded
  | pageNotPinned (file : Nat) (pageNo : Nat) (frameNo : Nat)
  | pagePinned (file : Nat) (pageNo : Nat) (frameNo : Nat)
  | badBuffer (frameNo : Nat) (dirty : Bool) (valid : Bool) (refbit : Bool)
deriving DecidableEq

/-- Calls issued against the external file collaborator, in program order. -/
inductive FileOp where
  | writePage (file : Option Nat) (pg : Page)
  | readPage (file : Nat) (pageNo : Nat)
  | allocatePage (file : Nat)
  | deletePage (file : Nat) (pageNo : Nat)
deriving DecidableEq

/-- The result of an operation: normal return or raised exception. -/
inductive Res (α : Type) where
  | ok (a : α)
  | err (e : BufError)
deriving DecidableEq

/-- The state of a `BufMgr` instance: the descriptor table, the page pool,
the page-identity hash table (modelled from the spec as a map
`(file, pageNo) → frame`, since `bufHashTbl` is not in the repository),
and the clock hand. -/
structure BufMgr where
  numBufs : Nat
  bufDescTable : Nat → BufDesc
  bufPool : Nat → Page
  hashTable : Option Nat → Nat → Option Nat
  clockHand : Nat

/-- Outcome of one operation: result, post state, file calls issued. -/
structure Outcome (α : Type) where
  result : Res α
  state : BufMgr
  events : List FileOp

/-- Overwrite the descriptor of frame `i`. -/
def updDesc (st : BufMgr) (i : Nat) (d : BufDesc) : BufMgr :=
  { st with bufDescTable := fun j => if j = i then d else st.bufDescTable j }

/-- Overwrite the pool slot of frame `i`. -/
def updPool (st : BufMgr) (i : Nat) (pg : Page) : BufMgr :=
  { st with bufPool := fun j => if j = i then pg else st.bufPool j }

/-- `hashTable->insert(f, p, fr)`. -/
def hashInsert (st : BufMgr) (f : Option Nat) (p : Nat) (fr : Nat) : BufMgr :=
  { st with hashTable := fun f' p' =>
      if f' = f ∧ p' = p then some fr else st.hashTable f' p' }

/-- `hashTable->remove(f, p)`. -/
def hashRemove (st : BufMgr) (f : Option Nat) (p : Nat) : BufMgr :=
  { st with hashTable := fun f' p' =>
      if f' = f ∧ p' = p then none else st.hashTable f' p' }

/-- `BufMgr::advanceClock()`: `clockHand = (clockHand + 1) % numBufs`. -/
def advanceClock (st : BufMgr) : BufMgr :=
  { st with clockHand := (st.clockHand + 1) % st.numBufs }

/-- `bufDescTable[i].refbit = 0`. -/
def clearRef (st : BufMgr) (i : Nat) : BufMgr :=
  updDesc st i { st.bufDescTable i with refbit := false }

/-- `bufDescTable[i].dirty = false`. -/
def clearDirty (st : BufMgr) (i : Nat) : BufMgr :=
  updDesc st i { st.bufDescTable i with dirty := false }

/-- `bufDescTable[i].Clear()`. -/
def clearDesc (st : BufMgr) (i : Nat) : BufMgr :=
  updDesc st i BufDesc.clear

/-- The `while(true)` scan of `BufMgr::allocBuf`, one recursive call per
loop iteration.  `sf` is the C++ local `startFrame`, `fa` the local
`frameAvail`.  The four branches are, in source order: invalid frame
(choose immediately), pinned frame (clear ref bit, skip), referenced frame
(clear ref bit, remember an evictable frame was seen, skip), victim
(write back if dirty, remove hash entry, clear descriptor, choose).
After a skip, the source checks `clockHand == startFrame && !frameAvail`
and throws `BufferExceededException`; in the referenced branch
`frameAvail` has just been set, so the check cannot fire there. -/
def allocBufLoop (sf : Nat) : Nat → Bool → BufMgr → Option (Outcome Nat)
  | 0, _, _ => none
  | fuel+1, fa, st =>
    if (st.bufDescTable st.clockHand).valid = false then
      some ⟨Res.ok st.clockHand, advanceClock st, []⟩
    else if 0 < (st.bufDescTable st.clockHand).pinCnt then
      if (advanceClock (clearRef st st.clockHand)).clockHand = sf ∧ fa = false then
        some ⟨Res.err BufError.bufferExceeded,
              advanceClock (clearRef st st.clockHand), []⟩
      else
        allocBufLoop sf fuel fa (advanceClock (clearRef st st.clockHand))
    else if (st.bufDescTable st.clockHand).refbit = true then
      allocBufLoop sf fuel true (advanceClock (clearRef st st.clockHand))
    else
      some ⟨Res.ok st.clockHand,
            advanceClock (clearDesc (hashRemove
              (if (st.bufDescTable st.clockHand).dirty = true
               then clearDirty st st.clockHand else st)
              (st.bufDescTable st.clockHand).file
              (st.bufDescTable st.clockHand).pageNo) st.clockHand),
            if (st.bufDescTable st.clockHand).dirty = true
            then [FileOp.writePage (st.bufDescTable st.clockHand).file
                    (st.bufPool st.clockHand)]
            else []⟩

/-- `BufMgr::allocBuf`.  The fuel `2 * numBufs` lets the hand visit each
frame at most twice; exceeding it yields `none`, which is proved
impossible for well-formed states. -/
def allocBuf (st : BufMgr) : Option (Outcome Nat) :=
  allocBufLoop st.clockHand (2 * st.numBufs) false st

/-- Fill frame `fr` with page identity `(f, p)`: `hashTable->insert`
followed by `bufDescTable[fr].Set(f, p)`, as on the miss path of
`readPage` and in `allocPage`. -/
def fillFrame (st : BufMgr) (f p fr : Nat) : BufMgr :=
  updDesc (hashInsert st (some f) p fr) fr (BufDesc.set f p)

/-- `BufMgr::readPage`.  `diskPg` is the content the file collaborator
returns for `file->readPage(p)` on a miss. -/
def readPage (st : BufMgr) (f p : Nat) (diskPg : Page) : Option (Outcome Nat) :=
  match st.hashTable (some f) p with
  | some fr =>
    some ⟨Res.ok fr,
          updDesc st fr { st.bufDescTable fr with
                          refbit := true,
                          pinCnt := (st.bufDescTable fr).pinCnt + 1 },
          []⟩
  | none =>
    match allocBuf st with
    | none => none
    | some a =>
      match a.result with
      | Res.err e => some ⟨Res.err e, a.state, a.events⟩
      | Res.ok fr =>
        some ⟨Res.ok fr,
              fillFrame (updPool a.state fr diskPg) f p fr,
              a.events ++ [FileOp.readPage f p]⟩

/-- `BufMgr::unPinPage`. -/
def unPinPage (st : BufMgr) (f p : Nat) (d : Bool) : Outcome Unit :=
  match st.hashTable (some f) p with
  | none => ⟨Res.ok (), st, []⟩
  | some fr =>
    if (st.bufDescTable fr).pinCnt = 0 then
      ⟨Res.err (BufError.pageNotPinned f p fr), st, []⟩
    else
      ⟨Res.ok (),
       updDesc st fr { st.bufDescTable fr with
                       pinCnt := (st.bufDescTable fr).pinCnt - 1,
                       dirty := if d then true else (st.bufDescTable fr).dirty },
       []⟩

/-- The `for` loop of `BufMgr::flushFile`: scan frames `i, i+1, ...`
(`rem` frames remain); on a frame owned by `f`, raise `PagePinnedException`
if pinned, `BadBufferException` if invalid, otherwise write back if dirty
and clear the dirty bit, remove the hash entry, clear the descriptor. -/
def flushFileAux (f : Nat) : Nat → Nat → BufMgr → List FileOp → Outcome Unit
  | _, 0, st, evs => ⟨Res.ok (), st, evs⟩
  | i, rem+1, st, evs =>
    if (st.bufDescTable i).file = some f then
      if 0 < (st.bufDescTable i).pinCnt then
        ⟨Res.err (BufError.pagePinned f (st.bufDescTable i).pageNo i), st, evs⟩
      else if (st.bufDescTable i).valid = false then
        ⟨Res.err (BufError.badBuffer i (st.bufDescTable i).dirty
                    (st.bufDescTable i).valid (st.bufDescTable i).refbit),
         st, evs⟩
      else
        flushFileAux f (i+1) rem
          (clearDesc (hashRemove
            (if (st.bufDescTable i).dirty = true then clearDirty st i else st)
            (some f) (st.bufDescTable i).pageNo) i)
          (evs ++ (if (st.bufDescTable i).dirty = true
                   then [FileOp.writePage (some f) (st.bufPool i)] else []))
    else
      flushFileAux f (i+1) rem st evs

/-- `BufMgr::flushFile`. -/
def flushFile (st : BufMgr) (f : Nat) : Outcome Unit :=
  flushFileAux f 0 st.numBufs st []

/-- `BufMgr::allocPage`.  `npg` is the fresh page the file collaborator
returns from `file->allocatePage()`.  Note the source order: `allocBuf`
first, then `file->allocatePage()`, then hash insert and descriptor set. -/
def allocPage (st : BufMgr) (f : Nat) (npg : Page) : Option (Outcome (Nat × Nat)) :=
  match allocBuf st with
  | none => none
  | some a =>
    match a.result with
    | Res.err e => some ⟨Res.err e, a.state, a.events⟩
    | Res.ok fr =>
      some ⟨Res.ok (npg.page_number, fr),
            fillFrame (updPool a.state fr npg) f npg.page_number fr,
            a.events ++ [FileOp.allocatePage f]⟩

/-- `BufMgr::disposePage`: if resident, remove the hash entry and clear
the descriptor (no write-back), then `file->deletePage`; otherwise just
`file->deletePage`. -/
def disposePage (st : BufMgr) (f p : Nat) : Outcome Unit :=
  match st.hashTable (some f) p with
  | some fr =>
    ⟨Res.ok (), clearDesc (hashRemove st (some f) p) fr,
     [FileOp.deletePage f p]⟩
  | none => ⟨Res.ok (), st, [FileOp.deletePage f p]⟩

/-- Well-formedness: a nonempty pool and an in-range clock hand (the
constructor establishes both: `clockHand = bufs - 1 < bufs`, `bufs > 0`). -/
def WF (st : BufMgr) : Prop :=
  0 < st.numBufs ∧ st.clockHand < st.numBufs

/-- A frame the scan skips over: valid and pinned, or valid and referenced. -/
def Skippable (d : BufDesc) : Prop :=
  d.valid = true ∧ (0 < d.pinCnt ∨ d.refbit = true)

/-- A frame the scan would choose on sight: invalid, or unpinned with a
clear ref bit. -/
def Evictable (d : BufDesc) : Prop :=
  d.valid = false ∨ (d.pinCnt = 0 ∧ d.refbit = false)

/-- The index/descriptor agreement invariant: an entry
`(f, p) → i` exists iff frame `i` is in range and its descriptor is valid
with owner `f` and page number `p`. -/
def IdxInv (st : BufMgr) : Prop :=
  (∀ f p i, st.hashTable f p = some i →
    i < st.numBufs ∧ (st.bufDescTable i).valid = true ∧
    (st.bufDescTable i).file = f ∧ (st.bufDescTable i).pageNo = p) ∧
  (∀ i, i < st.numBufs → (st.bufDescTable i).valid = true →
    st.hashTable (st.bufDescTable i).file (st.bufDescTable i).pageNo = some i)

/-- The physical writes `flushFile` performs scanning frames
`i, …, i+rem-1` of `st`: one per dirty frame owned by `f`, ascending. -/
def writeList (st : BufMgr) (f : Nat) : Nat → Nat → List FileOp
  | _, 0 => []
  | i, rem+1 =>
    (if (st.bufDescTable i).file = some f ∧ (st.bufDescTable i).dirty = true
     then [FileOp.writePage (some f) (st.bufPool i)] else [])
    ++ writeList st f (i+1) rem

/-- A one-frame pool holding a valid, pinned, referenced page — every
frame pinned. -/
def stPinned : BufMgr :=
  { numBufs := 1,
    bufDescTable := fun _ =>
      { file := some 0, pageNo := 0, valid := true, refbit := true,
        dirty := false, pinCnt := 1 },
    bufPool := fun _ => ⟨0, 0⟩,
    hashTable := fun f p => if f = some 0 ∧ p = 0 then some 0 else none,
    clockHand := 0 }

/-- A one-frame pool holding a valid, unpinned, unreferenced dirty page
`(file 3, page 7)` — the next allocation must evict it with a write. -/
def stDirty : BufMgr :=
  { numBufs := 1,
    bufDescTable := fun _ =>
      { file := some 3, pageNo := 7, valid := true, refbit := false,
        dirty := true, pinCnt := 0 },
    bufPool := fun _ => ⟨7, 42⟩,
    hashTable := fun f p => if f = some 3 ∧ p = 7 then some 0 else none,
    clockHand := 0 }

/-- An empty two-frame pool. -/
def stEmpty : BufMgr :=
  { numBufs := 2,
    bufDescTable := fun _ => BufDesc.clear,
    bufPool := fun _ => ⟨0, 0⟩,
    hashTable := fun _ _ => none,
    clockHand := 1 }

/-! ## Basic state lemmas -/

@[simp] theorem updDesc_numBufs (st : BufMgr) (i : Nat) (d : BufDesc) :
    (updDesc st i d).numBufs = st.numBufs := rfl

@[simp] theorem updDesc_clockHand (st : BufMgr) (i : Nat) (d : BufDesc) :
    (updDesc st i d).clockHand = st.clockHand := rfl

@[simp] theorem updDesc_hashTable (st : BufMgr) (i : Nat) (d : BufDesc) :
    (updDesc st i d).hashTable = st.hashTable := rfl

@[simp] theorem updDesc_bufPool (st : BufMgr) (i : Nat) (d : BufDesc) :
    (updDesc st i d).bufPool = st.bufPool := rfl

@[simp] theorem updDesc_desc (st : BufMgr) (i : Nat) (d : BufDesc) (j : Nat) :
    (updDesc st i d).bufDescTable j = if j = i then d else st.bufDescTable j := rfl

@[simp] theorem updPool_numBufs (st : BufMgr) (i : Nat) (pg : Page) :
    (updPool st i pg).numBufs = st.numBufs := rfl

@[simp] theorem updPool_clockHand (st : BufMgr) (i : Nat) (pg : Page) :
    (updPool st i pg).clockHand = st.clockHand := rfl

@[simp] theorem updPool_hashTable (st : BufMgr) (i : Nat) (pg : Page) :
    (updPool st i pg).hashTable = st.hashTable := rfl

@[simp] theorem updPool_desc (st : BufMgr) (i : Nat) (pg : Page) :
    (updPool st i pg).bufDescTable = st.bufDescTable := rfl

@[simp] theorem hashInsert_numBufs (st : BufMgr) (f : Option Nat) (p fr : Nat) :
    (hashInsert st f p fr).numBufs = st.numBufs := rfl

@[simp] theorem hashInsert_clockHand (st : BufMgr) (f : Option Nat) (p fr : Nat) :
    (hashInsert st f p fr).clockHand = st.clockHand := rfl

@[simp] theorem hashInsert_desc (st : BufMgr) (f : Option Nat) (p fr : Nat) :
    (hashInsert st f p fr).bufDescTable = st.bufDescTable := rfl

@[simp] theorem hashInsert_pool (st : BufMgr) (f : Option Nat) (p fr : Nat) :
    (hashInsert st f p fr).bufPool = st.bufPool := rfl

@[simp] theorem hashInsert_hash (st : BufMgr) (f : Option Nat) (p fr : Nat)
    (f' : Option Nat) (p' : Nat) :
    (hashInsert st f p fr).hashTable f' p' =
      if f' = f ∧ p' = p then some fr else st.hashTable f' p' := rfl

@[simp] theorem hashRemove_numBufs (st : BufMgr) (f : Option Nat) (p : Nat) :
    (hashRemove st f p).numBufs = st.numBufs := rfl

@[simp] theorem hashRemove_clockHand (st : BufMgr) (f : Option Nat) (p : Nat) :
    (hashRemove st f p).clockHand = st.clockHand := rfl

@[simp] theorem hashRemove_desc (st : BufMgr) (f : Option Nat) (p : Nat) :
    (hashRemove st f p).bufDescTable = st.bufDescTable := rfl

@[simp] theorem hashRemove_pool (st : BufMgr) (f : Option Nat) (p : Nat) :
    (hashRemove st f p).bufPool = st.bufPool := rfl

@[simp] theorem hashRemove_hash (st : BufMgr) (f : Option Nat) (p : Nat)
    (f' : Option Nat) (p' : Nat) :
    (hashRemove st f p).hashTable f' p' =
      if f' = f ∧ p' = p then none else st.hashTable f' p' := rfl

@[simp] theorem advanceClock_numBufs (st : BufMgr) :
    (advanceClock st).numBufs = st.numBufs := rfl

@[simp] theorem advanceClock_clockHand (st : BufMgr) :
    (advanceClock st).clockHand = (st.clockHand + 1) % st.numBufs := rfl

@[simp] theorem advanceClock_desc (st : BufMgr) :
    (advanceClock st).bufDescTable = st.bufDescTable := rfl

@[simp] theorem advanceClock_hash (st : BufMgr) :
    (advanceClock st).hashTable = st.hashTable := rfl

@[simp] theorem advanceClock_pool (st : BufMgr) :
    (advanceClock st).bufPool = st.bufPool := rfl

@[simp] theorem clearRef_numBufs (st : BufMgr) (i : Nat) :
    (clearRef st i).numBufs = st.numBufs := rfl

@[simp] theorem clearRef_clockHand (st : BufMgr) (i : Nat) :
    (clearRef st i).clockHand = st.clockHand := rfl

@[simp] theorem clearRef_hash (st : BufMgr) (i : Nat) :
    (clearRef st i).hashTable = st.hashTable := rfl

@[simp] theorem clearRef_pool (st : BufMgr) (i : Nat) :
    (clearRef st i).bufPool = st.bufPool := rfl

@[simp] theorem clearRef_desc (st : BufMgr) (i j : Nat) :
    (clearRef st i).bufDescTable j =
      if j = i then { st.bufDescTable i with refbit := false }
      else st.bufDescTable j := rfl

@[simp] theorem clearDirty_numBufs (st : BufMgr) (i : Nat) :
    (clearDirty st i).numBufs = st.numBufs := rfl

@[simp] theorem clearDirty_clockHand (st : BufMgr) (i : Nat) :
    (clearDirty st i).clockHand = st.clockHand := rfl

@[simp] theorem clearDirty_hash (st : BufMgr) (i : Nat) :
    (clearDirty st i).hashTable = st.hashTable := rfl

@[simp] theorem clearDirty_pool (st : BufMgr) (i : Nat) :
    (clearDirty st i).bufPool = st.bufPool := rfl

@[simp] theorem clearDirty_desc (st : BufMgr) (i j : Nat) :
    (clearDirty st i).bufDescTable j =
      if j = i then { st.bufDescTable i with dirty := false }
      else st.bufDescTable j := rfl

@[simp] theorem clearDesc_numBufs (st : BufMgr) (i : Nat) :
    (clearDesc st i).numBufs = st.numBufs := rfl

@[simp] theorem clearDesc_clockHand (st : BufMgr) (i : Nat) :
    (clearDesc st i).clockHand = st.clockHand := rfl

@[simp] theorem clearDesc_hash (st : BufMgr) (i : Nat) :
    (clearDesc st i).hashTable = st.hashTable := rfl

@[simp] theorem clearDesc_pool (st : BufMgr) (i : Nat) :
    (clearDesc st i).bufPool = st.bufPool := rfl

@[simp] theorem clearDesc_desc (st : BufMgr) (i j : Nat) :
    (clearDesc st i).bufDescTable j =
      if j = i then BufDesc.clear else st.bufDescTable j := rfl

/-! ## Modular arithmetic helpers -/

theorem mod_shift_ne {N a j : Nat} (h1 : 0 < j) (h2 : j < N) :
    (a + j) % N ≠ a % N := by
  intro h
  have hr : a % N < N := Nat.mod_lt _ (Nat.lt_of_le_of_lt (Nat.zero_le j) h2)
  have hj : j % N = j := Nat.mod_eq_of_lt h2
  rw [Nat.add_mod] at h
  rw [hj] at h
  rcases Nat.lt_or_ge (a % N + j) N with hlt | hge
  · rw [Nat.mod_eq_of_lt hlt] at h
    omega
  · rw [Nat.mod_eq_sub_mod hge] at h
    have hlt2 : a % N + j - N < N := by omega
    rw [Nat.mod_eq_of_lt hlt2] at h
    omega

theorem mod_step (a k N : Nat) : ((a + 1) % N + k) % N = (a + (k + 1)) % N := by
  rw [Nat.mod_add_mod]
  congr 1
  omega

theorem mod_cycle {a N : Nat} (h : a < N) : (a + N) % N = a := by
  rw [Nat.add_mod_right]
  exact Nat.mod_eq_of_lt h

theorem exists_offset {p hand N : Nat} (hp : p < N) (hh : hand < N) :
    ∃ j, j < N ∧ (hand + j) % N = p := by
  refine ⟨(N + p - hand) % N, Nat.mod_lt _ (by omega), ?_⟩
  rw [Nat.add_mod_mod]
  have h : hand + (N + p - hand) = N + p := by omega
  rw [h, Nat.add_comm N p, Nat.add_mod_right]
  exact Nat.mod_eq_of_lt hp

/-! ## Unfolding lemmas for the clock scan -/

theorem loop_succ_invalid {st : BufMgr} (sf fuel : Nat) (fa : Bool)
    (h : (st.bufDescTable st.clockHand).valid = false) :
    allocBufLoop sf (fuel+1) fa st =
      some ⟨Res.ok st.clockHand, advanceClock st, []⟩ := by
  simp [allocBufLoop, h]

theorem loop_succ_pinned {st : BufMgr} (sf fuel : Nat) (fa : Bool)
    (h1 : (st.bufDescTable st.clockHand).valid = true)
    (h2 : 0 < (st.bufDescTable st.clockHand).pinCnt) :
    allocBufLoop sf (fuel+1) fa st =
      if (advanceClock (clearRef st st.clockHand)).clockHand = sf ∧ fa = false then
        some ⟨Res.err BufError.bufferExceeded,
              advanceClock (clearRef st st.clockHand), []⟩
      else
        allocBufLoop sf fuel fa (advanceClock (clearRef st st.clockHand)) := by
  simp [allocBufLoop, h1, h2]

theorem loop_succ_ref {st : BufMgr} (sf fuel : Nat) (fa : Bool)
    (h1 : (st.bufDescTable st.clockHand).valid = true)
    (h2 : (st.bufDescTable st.clockHand).pinCnt = 0)
    (h3 : (st.bufDescTable st.clockHand).refbit = true) :
    allocBufLoop sf (fuel+1) fa st =
      allocBufLoop sf fuel true (advanceClock (clearRef st st.clockHand)) := by
  simp [allocBufLoop, h1, h2, h3]

theorem loop_succ_victim {st : BufMgr} (sf fuel : Nat) (fa : Bool)
    (h1 : (st.bufDescTable st.clockHand).valid = true)
    (h2 : (st.bufDescTable st.clockHand).pinCnt = 0)
    (h3 : (st.bufDescTable st.clockHand).refbit = false) :
    allocBufLoop sf (fuel+1) fa st =
      some ⟨Res.ok st.clockHand,
            advanceClock (clearDesc (hashRemove
              (if (st.bufDescTable st.clockHand).dirty = true
               then clearDirty st st.clockHand else st)
              (st.bufDescTable st.clockHand).file
              (st.bufDescTable st.clockHand).pageNo) st.clockHand),
            if (st.bufDescTable st.clockHand).dirty = true
            then [FileOp.writePage (st.bufDescTable st.clockHand).file
                    (st.bufPool st.clockHand)]
            else []⟩ := by
  simp [allocBufLoop, h1, h2, h3]

/-! ## Shape lemmas for the clock scan -/

theorem loop_basic (sf : Nat) : ∀ (fuel : Nat) (fa : Bool) (st : BufMgr)
    (out : Outcome Nat), st.clockHand < st.numBufs →
    allocBufLoop sf fuel fa st = some out →
    out.state.numBufs = st.numBufs ∧ out.state.clockHand < st.numBufs ∧
    (∀ fr, out.result = Res.ok fr → fr < st.numBufs) := by
  intro fuel
  induction fuel with
  | zero => intro fa st out _ h; simp [allocBufLoop] at h
  | succ fuel ih =>
    intro fa st out hh h
    have hN : 0 < st.numBufs := Nat.lt_of_le_of_lt (Nat.zero_le _) hh
    by_cases hv : (st.bufDescTable st.clockHand).valid = false
    · rw [loop_succ_invalid sf fuel fa hv] at h
      cases h
      refine ⟨rfl, by simpa using Nat.mod_lt _ hN, ?_⟩
      intro fr hfr
      cases hfr
      exact hh
    · have hv' : (st.bufDescTable st.clockHand).valid = true := by
        revert hv; cases (st.bufDescTable st.clockHand).valid <;> simp
      by_cases hp : 0 < (st.bufDescTable st.clockHand).pinCnt
      · rw [loop_succ_pinned sf fuel fa hv' hp] at h
        by_cases hc : (advanceClock (clearRef st st.clockHand)).clockHand = sf ∧ fa = false
        · rw [if_pos hc] at h
          cases h
          refine ⟨rfl, by simpa using Nat.mod_lt _ hN, ?_⟩
          intro fr hfr
          cases hfr
        · rw [if_neg hc] at h
          have := ih fa (advanceClock (clearRef st st.clockHand)) out
            (by simpa using Nat.mod_lt _ hN) h
          simpa using this
      · have hp' : (st.bufDescTable st.clockHand).pinCnt = 0 := by omega
        by_cases hr : (st.bufDescTable st.clockHand).refbit = true
        · rw [loop_succ_ref sf fuel fa hv' hp' hr] at h
          have := ih true (advanceClock (clearRef st st.clockHand)) out
            (by simpa using Nat.mod_lt _ hN) h
          simpa using this
        · have hr' : (st.bufDescTable st.clockHand).refbit = false := by
            revert hr; cases (st.bufDescTable st.clockHand).refbit <;> simp
          rw [loop_succ_victim sf fuel fa hv' hp' hr'] at h
          cases h
          refine ⟨?_, ?_, ?_⟩
          · by_cases hd : (st.bufDescTable st.clockHand).dirty = true <;> simp [hd]
          · by_cases hd : (st.bufDescTable st.clockHand).dirty = true <;>
              simp [hd, Nat.mod_lt _ hN]
          · intro fr hfr
            cases hfr
            exact hh

theorem loop_hash_mono (sf : Nat) : ∀ (fuel : Nat) (fa : Bool) (st : BufMgr)
    (out : Outcome Nat) (f : Option Nat) (p : Nat),
    allocBufLoop sf fuel fa st = some out →
    out.state.hashTable f p = st.hashTable f p ∨ out.state.hashTable f p = none := by
  intro fuel
  induction fuel with
  | zero => intro fa st out f p h; simp [allocBufLoop] at h
  | succ fuel ih =>
    intro fa st out f p h
    by_cases hv : (st.bufDescTable st.clockHand).valid = false
    · rw [loop_succ_invalid sf fuel fa hv] at h
      cases h
      left; rfl
    · have hv' : (st.bufDescTable st.clockHand).valid = true := by
        revert hv; cases (st.bufDescTable st.clockHand).valid <;> simp
      by_cases hp : 0 < (st.bufDescTable st.clockHand).pinCnt
      · rw [loop_succ_pinned sf fuel fa hv' hp] at h
        by_cases hc : (advanceClock (clearRef st st.clockHand)).clockHand = sf ∧ fa = false
        · rw [if_pos hc] at h
          cases h
          left; rfl
        · rw [if_neg hc] at h
          have := ih fa (advanceClock (clearRef st st.clockHand)) out f p h
          simpa using this
      · have hp' : (st.bufDescTable st.clockHand).pinCnt = 0 := by omega
        by_cases hr : (st.bufDescTable st.clockHand).refbit = true
        · rw [loop_succ_ref sf fuel fa hv' hp' hr] at h
          have := ih true (advanceClock (clearRef st st.clockHand)) out f p h
          simpa using this
        · have hr' : (st.bufDescTable st.clockHand).refbit = false := by
            revert hr; cases (st.bufDescTable st.clockHand).refbit <;> simp
          rw [loop_succ_victim sf fuel fa hv' hp' hr'] at h
          cases h
          by_cases hk : f = (st.bufDescTable st.clockHand).file ∧
              p = (st.bufDescTable st.clockHand).pageNo
          · right
            by_cases hd : (st.bufDescTable st.clockHand).dirty = true <;>
              simp [hd, hk]
          · left
            by_cases hd : (st.bufDescTable st.clockHand).dirty = true <;>
              simp [hd, hk]

theorem loop_ok_spec (sf : Nat) : ∀ (fuel : Nat) (fa : Bool) (st : BufMgr)
    (out : Outcome Nat) (fr : Nat),
    allocBufLoop sf fuel fa st = some out → out.result = Res.ok fr →
    ((st.bufDescTable fr).valid = false ∧
     out.state.bufDescTable fr = st.bufDescTable fr ∧
     out.events = [] ∧ out.state.hashTable = st.hashTable) ∨
    ((st.bufDescTable fr).valid = true ∧ (st.bufDescTable fr).pinCnt = 0 ∧
     out.events = (if (st.bufDescTable fr).dirty = true
                   then [FileOp.writePage (st.bufDescTable fr).file (st.bufPool fr)]
                   else []) ∧
     out.state.bufDescTable fr = BufDesc.clear ∧
     out.state.hashTable (st.bufDescTable fr).file (st.bufDescTable fr).pageNo = none) := by
  intro fuel
  induction fuel with
  | zero => intro fa st out fr h _; simp [allocBufLoop] at h
  | succ fuel ih =>
    intro fa st out fr h hres
    by_cases hv : (st.bufDescTable st.clockHand).valid = false
    · rw [loop_succ_invalid sf fuel fa hv] at h
      cases h
      simp only [] at hres
      have hfr : st.clockHand = fr := by
        cases hres; rfl
      subst hfr
      exact Or.inl ⟨hv, by simp, rfl, rfl⟩
    · have hv' : (st.bufDescTable st.clockHand).valid = true := by
        revert hv; cases (st.bufDescTable st.clockHand).valid <;> simp
      by_cases hp : 0 < (st.bufDescTable st.clockHand).pinCnt
      · rw [loop_succ_pinned sf fuel fa hv' hp] at h
        by_cases hc : (advanceClock (clearRef st st.clockHand)).clockHand = sf ∧ fa = false
        · rw [if_pos hc] at h
          cases h
          cases hres
        · rw [if_neg hc] at h
          have H := ih fa (advanceClock (clearRef st st.clockHand)) out fr h hres
          by_cases hfr : fr = st.clockHand
          · subst hfr
            simp only [advanceClock_desc, advanceClock_hash, advanceClock_pool,
              clearRef_desc, clearRef_hash, clearRef_pool, if_pos rfl] at H
            rcases H with ⟨hval, _⟩ | ⟨_, hpin, hev, hdesc, hhash⟩
            · have hval2 : (st.bufDescTable st.clockHand).valid = false := hval
              rw [hv'] at hval2
              simp at hval2
            · exact Or.inr ⟨hv', hpin, hev, hdesc, hhash⟩
          · simp only [advanceClock_desc, advanceClock_hash, advanceClock_pool,
              clearRef_desc, clearRef_hash, clearRef_pool, if_neg hfr] at H
            exact H
      · have hp' : (st.bufDescTable st.clockHand).pinCnt = 0 := by omega
        by_cases hr : (st.bufDescTable st.clockHand).refbit = true
        · rw [loop_succ_ref sf fuel fa hv' hp' hr] at h
          have H := ih true (advanceClock (clearRef st st.clockHand)) out fr h hres
          by_cases hfr : fr = st.clockHand
          · subst hfr
            simp only [advanceClock_desc, advanceClock_hash, advanceClock_pool,
              clearRef_desc, clearRef_hash, clearRef_pool, if_pos rfl] at H
            rcases H with ⟨hval, _⟩ | ⟨_, hpin, hev, hdesc, hhash⟩
            · have hval2 : (st.bufDescTable st.clockHand).valid = false := hval
              rw [hv'] at hval2
              simp at hval2
            · exact Or.inr ⟨hv', hpin, hev, hdesc, hhash⟩
          · simp only [advanceClock_desc, advanceClock_hash, advanceClock_pool,
              clearRef_desc, clearRef_hash, clearRef_pool, if_neg hfr] at H
            exact H
        · have hr' : (st.bufDescTable st.clockHand).refbit = false := by
            revert hr; cases (st.bufDescTable st.clockHand).refbit <;> simp
          rw [loop_succ_victim sf fuel fa hv' hp' hr'] at h
          cases h
          have hfr : st.clockHand = fr := by
            cases hres; rfl
          subst hfr
          refine Or.inr ⟨hv', hp', rfl, by simp, by simp⟩

theorem loop_reach (sf : Nat) : ∀ (k : Nat) (fuel : Nat) (fa : Bool) (st : BufMgr),
    st.clockHand < st.numBufs → k < st.numBufs → k + 1 ≤ fuel →
    (∀ j, j < k → Skippable (st.bufDescTable ((st.clockHand + j) % st.numBufs))) →
    Evictable (st.bufDescTable ((st.clockHand + k) % st.numBufs)) →
    (fa = true ∨ ∀ j, j < k → (st.clockHand + (j + 1)) % st.numBufs ≠ sf) →
    ∃ out, allocBufLoop sf fuel fa st = some out ∧
      out.result = Res.ok ((st.clockHand + k) % st.numBufs) := by
  intro k
  induction k with
  | zero =>
    intro fuel fa st hh hk hfuel hskip hev hside
    have h0 : (st.clockHand + 0) % st.numBufs = st.clockHand := by
      simpa using Nat.mod_eq_of_lt hh
    rw [h0] at hev ⊢
    obtain ⟨fuel, rfl⟩ : ∃ f, fuel = f + 1 := ⟨fuel - 1, by omega⟩
    by_cases hv : (st.bufDescTable st.clockHand).valid = false
    · exact ⟨_, loop_succ_invalid sf fuel fa hv, rfl⟩
    · have hv' : (st.bufDescTable st.clockHand).valid = true := by
        revert hv; cases (st.bufDescTable st.clockHand).valid <;> simp
      rcases hev with hvf | ⟨hp, hr⟩
      · exact absurd hvf hv
      · exact ⟨_, loop_succ_victim sf fuel fa hv' hp hr, rfl⟩
  | succ k ih =>
    intro fuel fa st hh hk hfuel hskip hev hside
    have hN : 0 < st.numBufs := by omega
    have h0 : (st.clockHand + 0) % st.numBufs = st.clockHand := by
      simpa using Nat.mod_eq_of_lt hh
    have hsk0 := hskip 0 (Nat.succ_pos k)
    rw [h0] at hsk0
    obtain ⟨hv', hpr⟩ := hsk0
    obtain ⟨fuel, rfl⟩ : ∃ f, fuel = f + 1 := ⟨fuel - 1, by omega⟩
    have hst1hand : (advanceClock (clearRef st st.clockHand)).clockHand
        = (st.clockHand + 1) % st.numBufs := by simp
    have hhand1 : (advanceClock (clearRef st st.clockHand)).clockHand < st.numBufs := by
      rw [hst1hand]; exact Nat.mod_lt _ hN
    have hposne : ∀ j, j + 1 < st.numBufs →
        (st.clockHand + (j + 1)) % st.numBufs ≠ st.clockHand := by
      intro j hj
      have h := mod_shift_ne (N := st.numBufs) (a := st.clockHand) (j := j + 1)
        (by omega) hj
      rw [Nat.mod_eq_of_lt hh] at h
      exact h
    have hdesc1 : ∀ q, q ≠ st.clockHand →
        (advanceClock (clearRef st st.clockHand)).bufDescTable q
          = st.bufDescTable q := by
      intro q hq; simp [hq]
    have hskip1 : ∀ j, j < k →
        Skippable ((advanceClock (clearRef st st.clockHand)).bufDescTable
          (((advanceClock (clearRef st st.clockHand)).clockHand + j) % st.numBufs)) := by
      intro j hj
      rw [hst1hand, mod_step]
      rw [hdesc1 _ (hposne j (by omega))]
      exact hskip (j + 1) (by omega)
    have hev1 : Evictable ((advanceClock (clearRef st st.clockHand)).bufDescTable
        (((advanceClock (clearRef st st.clockHand)).clockHand + k) % st.numBufs)) := by
      rw [hst1hand, mod_step]
      rw [hdesc1 _ (hposne k (by omega))]
      exact hev
    have hpos : ((advanceClock (clearRef st st.clockHand)).clockHand + k) % st.numBufs
        = (st.clockHand + (k + 1)) % st.numBufs := by
      rw [hst1hand, mod_step]
    by_cases hp : 0 < (st.bufDescTable st.clockHand).pinCnt
    · have hnothrow : ¬ ((advanceClock (clearRef st st.clockHand)).clockHand = sf
          ∧ fa = false) := by
        rcases hside with hfa | hside
        · rintro ⟨_, hfa'⟩; rw [hfa] at hfa'; cases hfa'
        · rintro ⟨hc, _⟩
          refine hside 0 (Nat.succ_pos k) ?_
          rw [← hst1hand] at *
          simpa using hc
      have hside1 : fa = true ∨ ∀ j, j < k →
          ((advanceClock (clearRef st st.clockHand)).clockHand + (j + 1)) % st.numBufs
            ≠ sf := by
        rcases hside with hfa | hside
        · exact Or.inl hfa
        · refine Or.inr fun j hj => ?_
          rw [hst1hand, mod_step]
          exact hside (j + 1) (by omega)
      obtain ⟨out, hout, hres⟩ := ih fuel fa (advanceClock (clearRef st st.clockHand))
        hhand1 (by simpa using (by omega : k < st.numBufs)) (by omega)
        hskip1 hev1 hside1
      refine ⟨out, ?_, ?_⟩
      · rw [loop_succ_pinned sf fuel fa hv' hp, if_neg hnothrow]
        exact hout
      · rw [hres]
        rw [show ((advanceClock (clearRef st st.clockHand)).clockHand + k)
              % (advanceClock (clearRef st st.clockHand)).numBufs
            = ((advanceClock (clearRef st st.clockHand)).clockHand + k) % st.numBufs
          from rfl, hpos]
    · have hp0 : (st.bufDescTable st.clockHand).pinCnt = 0 := by omega
      have hr : (st.bufDescTable st.clockHand).refbit = true := by
        rcases hpr with h | h
        · omega
        · exact h
      obtain ⟨out, hout, hres⟩ := ih fuel true (advanceClock (clearRef st st.clockHand))
        hhand1 (by simpa using (by omega : k < st.numBufs)) (by omega)
        hskip1 hev1 (Or.inl rfl)
      refine ⟨out, ?_, ?_⟩
      · rw [loop_succ_ref sf fuel fa hv' hp0 hr]
        exact hout
      · rw [hres]
        rw [show ((advanceClock (clearRef st st.clockHand)).clockHand + k)
              % (advanceClock (clearRef st st.clockHand)).numBufs
            = ((advanceClock (clearRef st st.clockHand)).clockHand + k) % st.numBufs
          from rfl, hpos]

theorem loop_allPinned (sf : Nat) : ∀ (m : Nat) (fuel : Nat) (st : BufMgr),
    st.clockHand < st.numBufs → 0 < m → m ≤ st.numBufs → m ≤ fuel →
    (∀ p, p < st.numBufs →
      (st.bufDescTable p).valid = true ∧ 0 < (st.bufDescTable p).pinCnt) →
    (st.clockHand + m) % st.numBufs = sf →
    ∃ out, allocBufLoop sf fuel false st = some out ∧
      out.result = Res.err BufError.bufferExceeded := by
  intro m
  induction m with
  | zero => intro fuel st _ hm; omega
  | succ m ih =>
    intro fuel st hh hm hmN hfuel hall hsf
    have hN : 0 < st.numBufs := by omega
    obtain ⟨fuel, rfl⟩ : ∃ f, fuel = f + 1 := ⟨fuel - 1, by omega⟩
    obtain ⟨hv', hp⟩ := hall st.clockHand hh
    rw [loop_succ_pinned sf fuel false hv' hp]
    have hst1hand : (advanceClock (clearRef st st.clockHand)).clockHand
        = (st.clockHand + 1) % st.numBufs := by simp
    cases Nat.eq_zero_or_pos m with
    | inl hm0 =>
      subst hm0
      have hc : (advanceClock (clearRef st st.clockHand)).clockHand = sf := by
        rw [hst1hand]; simpa using hsf
      rw [if_pos ⟨hc, rfl⟩]
      exact ⟨_, rfl, rfl⟩
    | inr hm1 =>
      have hne : (advanceClock (clearRef st st.clockHand)).clockHand ≠ sf := by
        rw [hst1hand]
        intro hc
        rw [← hsf] at hc
        have h2 := mod_shift_ne (N := st.numBufs) (a := st.clockHand + 1) (j := m)
          hm1 (by omega)
        rw [show st.clockHand + 1 + m = st.clockHand + (m + 1) from by omega] at h2
        exact h2 hc.symm
      rw [if_neg (by rintro ⟨hc, _⟩; exact hne hc)]
      refine ih fuel (advanceClock (clearRef st st.clockHand))
        (by rw [hst1hand]; exact Nat.mod_lt _ hN) hm1
        (by simpa using (by omega : m ≤ st.numBufs)) (by omega) ?_ ?_
      · intro p hp2
        by_cases hpq : p = st.clockHand
        · subst hpq
          simp only [advanceClock_desc, clearRef_desc, if_pos rfl]
          exact ⟨hv', hp⟩
        · simp only [advanceClock_desc, clearRef_desc, if_neg hpq]
          exact hall p (by simpa using hp2)
      · rw [hst1hand]
        rw [show ((st.clockHand + 1) % st.numBufs + m)
              % (advanceClock (clearRef st st.clockHand)).numBufs
            = ((st.clockHand + 1) % st.numBufs + m) % st.numBufs from rfl]
        rw [mod_step]
        exact hsf

theorem loop_secondChance (sf : Nat) : ∀ (k : Nat) (fuel : Nat) (fa : Bool) (st : BufMgr),
    st.clockHand < st.numBufs → k < st.numBufs → k + 1 + st.numBufs ≤ fuel →
    (∀ p, p < st.numBufs → (st.bufDescTable p).valid = true) →
    (∀ p, p < st.numBufs → (st.bufDescTable p).pinCnt = 0 →
      (st.bufDescTable p).refbit = true) →
    (∀ j, j < k → 0 < (st.bufDescTable ((st.clockHand + j) % st.numBufs)).pinCnt) →
    (st.bufDescTable ((st.clockHand + k) % st.numBufs)).pinCnt = 0 →
    (fa = true ∨ ∀ j, j < k → (st.clockHand + (j + 1)) % st.numBufs ≠ sf) →
    ∃ out fr, allocBufLoop sf fuel fa st = some out ∧ out.result = Res.ok fr := by
  intro k
  induction k with
  | zero =>
    intro fuel fa st hh hk hfuel hall hnoev _ htar _
    have hN : 0 < st.numBufs := by omega
    have h0 : (st.clockHand + 0) % st.numBufs = st.clockHand := by
      simpa using Nat.mod_eq_of_lt hh
    rw [h0] at htar
    have hv' := hall st.clockHand hh
    have hr := hnoev st.clockHand hh htar
    obtain ⟨fuel, rfl⟩ : ∃ f, fuel = f + 1 := ⟨fuel - 1, by omega⟩
    rw [loop_succ_ref sf fuel fa hv' htar hr]
    have hst1hand : (advanceClock (clearRef st st.clockHand)).clockHand
        = (st.clockHand + 1) % st.numBufs := by simp
    have hhand1 : (advanceClock (clearRef st st.clockHand)).clockHand < st.numBufs := by
      rw [hst1hand]; exact Nat.mod_lt _ hN
    have hposne : ∀ j, j + 1 < st.numBufs →
        (st.clockHand + (j + 1)) % st.numBufs ≠ st.clockHand := by
      intro j hj
      have h := mod_shift_ne (N := st.numBufs) (a := st.clockHand) (j := j + 1)
        (by omega) hj
      rw [Nat.mod_eq_of_lt hh] at h
      exact h
    have hskip1 : ∀ j, j < st.numBufs - 1 →
        Skippable ((advanceClock (clearRef st st.clockHand)).bufDescTable
          (((advanceClock (clearRef st st.clockHand)).clockHand + j) % st.numBufs)) := by
      intro j hj
      rw [hst1hand, mod_step]
      have hq : (st.clockHand + (j + 1)) % st.numBufs ≠ st.clockHand :=
        hposne j (by omega)
      simp only [advanceClock_desc, clearRef_desc, if_neg hq]
      have hqlt : (st.clockHand + (j + 1)) % st.numBufs < st.numBufs := Nat.mod_lt _ hN
      refine ⟨hall _ hqlt, ?_⟩
      by_cases hpin : 0 < (st.bufDescTable ((st.clockHand + (j + 1)) % st.numBufs)).pinCnt
      · exact Or.inl hpin
      · exact Or.inr (hnoev _ hqlt (by omega))
    have hev1 : Evictable ((advanceClock (clearRef st st.clockHand)).bufDescTable
        (((advanceClock (clearRef st st.clockHand)).clockHand + (st.numBufs - 1))
          % st.numBufs)) := by
      rw [hst1hand, mod_step]
      rw [show st.numBufs - 1 + 1 = st.numBufs from by omega, mod_cycle hh]
      simp only [advanceClock_desc, clearRef_desc, if_pos rfl]
      exact Or.inr ⟨htar, rfl⟩
    obtain ⟨out, hout, hres⟩ := loop_reach sf (st.numBufs - 1) fuel true
      (advanceClock (clearRef st st.clockHand)) hhand1
      (by simpa using (by omega : st.numBufs - 1 < st.numBufs)) (by omega)
      hskip1 hev1 (Or.inl rfl)
    exact ⟨out, _, hout, hres⟩
  | succ k ih =>
    intro fuel fa st hh hk hfuel hall hnoev hpre htar hside
    have hN : 0 < st.numBufs := by omega
    have h0 : (st.clockHand + 0) % st.numBufs = st.clockHand := by
      simpa using Nat.mod_eq_of_lt hh
    have hp0 : 0 < (st.bufDescTable st.clockHand).pinCnt := by
      have := hpre 0 (Nat.succ_pos k)
      rwa [h0] at this
    have hv' := hall st.clockHand hh
    obtain ⟨fuel, rfl⟩ : ∃ f, fuel = f + 1 := ⟨fuel - 1, by omega⟩
    rw [loop_succ_pinned sf fuel fa hv' hp0]
    have hst1hand : (advanceClock (clearRef st st.clockHand)).clockHand
        = (st.clockHand + 1) % st.numBufs := by simp
    have hhand1 : (advanceClock (clearRef st st.clockHand)).clockHand < st.numBufs := by
      rw [hst1hand]; exact Nat.mod_lt _ hN
    have hposne : ∀ j, j + 1 < st.numBufs →
        (st.clockHand + (j + 1)) % st.numBufs ≠ st.clockHand := by
      intro j hj
      have h := mod_shift_ne (N := st.numBufs) (a := st.clockHand) (j := j + 1)
        (by omega) hj
      rw [Nat.mod_eq_of_lt hh] at h
      exact h
    have hnothrow : ¬ ((advanceClock (clearRef st st.clockHand)).clockHand = sf
        ∧ fa = false) := by
      rcases hside with hfa | hside
      · rintro ⟨_, hfa'⟩; rw [hfa] at hfa'; cases hfa'
      · rintro ⟨hc, _⟩
        refine hside 0 (Nat.succ_pos k) ?_
        rw [← hst1hand] at *
        simpa using hc
    rw [if_neg hnothrow]
    have hdesc1 : ∀ q, q ≠ st.clockHand →
        (advanceClock (clearRef st st.clockHand)).bufDescTable q
          = st.bufDescTable q := by
      intro q hq; simp [hq]
    refine ih fuel fa (advanceClock (clearRef st st.clockHand)) hhand1
      (by simpa using (by omega : k < st.numBufs))
      (by simpa using (by omega : k + 1 + st.numBufs ≤ fuel)) ?_ ?_ ?_ ?_ ?_
    · intro p hp2
      by_cases hpq : p = st.clockHand
      · subst hpq
        simp only [advanceClock_desc, clearRef_desc, if_pos rfl]
        exact hv'
      · rw [hdesc1 p hpq]
        exact hall p (by simpa using hp2)
    · intro p hp2 hpin
      by_cases hpq : p = st.clockHand
      · subst hpq
        exfalso
        simp only [advanceClock_desc, clearRef_desc, if_pos rfl] at hpin
        have hpin2 : (st.bufDescTable st.clockHand).pinCnt = 0 := hpin
        omega
      · rw [hdesc1 p hpq] at hpin ⊢
        exact hnoev p (by simpa using hp2) hpin
    · intro j hj
      rw [show ((advanceClock (clearRef st st.clockHand)).clockHand + j)
            % (advanceClock (clearRef st st.clockHand)).numBufs
          = ((advanceClock (clearRef st st.clockHand)).clockHand + j) % st.numBufs
        from rfl, hst1hand, mod_step]
      rw [hdesc1 _ (hposne j (by omega))]
      exact hpre (j + 1) (by omega)
    · rw [show ((advanceClock (clearRef st st.clockHand)).clockHand + k)
            % (advanceClock (clearRef st st.clockHand)).numBufs
          = ((advanceClock (clearRef st st.clockHand)).clockHand + k) % st.numBufs
        from rfl, hst1hand, mod_step]
      rw [hdesc1 _ (hposne k (by omega))]
      exact htar
    · rcases hside with hfa | hside
      · exact Or.inl hfa
      · refine Or.inr fun j hj => ?_
        rw [show ((advanceClock (clearRef st st.clockHand)).clockHand + (j + 1))
              % (advanceClock (clearRef st st.clockHand)).numBufs
            = ((advanceClock (clearRef st st.clockHand)).clockHand + (j + 1))
              % st.numBufs
          from rfl, hst1hand, mod_step]
        exact hside (j + 1) (by omega)

theorem not_evictable {d : BufDesc} (h : ¬ Evictable d) : Skippable d := by
  unfold Evictable at h
  unfold Skippable
  constructor
  · cases hv : d.valid
    · exact absurd (Or.inl hv) h
    · rfl
  · by_cases hp : d.pinCnt = 0
    · cases hr : d.refbit
      · exact absurd (Or.inr ⟨hp, hr⟩) h
      · exact Or.inr rfl
    · exact Or.inl (by omega)

theorem hand_shift_ne {st : BufMgr} (h1 : st.clockHand < st.numBufs) (j : Nat)
    (hj : j + 1 < st.numBufs) :
    (st.clockHand + (j + 1)) % st.numBufs ≠ st.clockHand := by
  have h := mod_shift_ne (N := st.numBufs) (a := st.clockHand) (j := j + 1)
    (by omega) hj
  rw [Nat.mod_eq_of_lt h1] at h
  exact h

theorem alloc_cases (st : BufMgr) (h0 : 0 < st.numBufs)
    (h1 : st.clockHand < st.numBufs) :
    ∃ out, allocBuf st = some out ∧
      ((∀ p, p < st.numBufs → (st.bufDescTable p).valid = true ∧
          0 < (st.bufDescTable p).pinCnt) →
        out.result = Res.err BufError.bufferExceeded) ∧
      ((∃ p, p < st.numBufs ∧ ((st.bufDescTable p).valid = false ∨
          (st.bufDescTable p).pinCnt = 0)) →
        ∃ fr, out.result = Res.ok fr) := by
  classical
  by_cases hAll : ∀ p, p < st.numBufs →
      (st.bufDescTable p).valid = true ∧ 0 < (st.bufDescTable p).pinCnt
  · obtain ⟨out, hout, hres⟩ := loop_allPinned st.clockHand st.numBufs
      (2 * st.numBufs) st h1 h0 (le_refl _) (by omega) hAll (by rw [mod_cycle h1])
    refine ⟨out, hout, fun _ => hres, ?_⟩
    rintro ⟨p, hp, hbad⟩
    obtain ⟨hv, hpin⟩ := hAll p hp
    rcases hbad with h | h
    · rw [hv] at h; cases h
    · omega
  · by_cases hEv : ∃ j, j < st.numBufs ∧
        Evictable (st.bufDescTable ((st.clockHand + j) % st.numBufs))
    · have hfind := Nat.find_spec hEv
      have hskip : ∀ j, j < Nat.find hEv →
          Skippable (st.bufDescTable ((st.clockHand + j) % st.numBufs)) := by
        intro j hj
        have hmin := Nat.find_min hEv hj
        refine not_evictable fun hc => hmin ⟨by omega, hc⟩
      have hside : (false = true) ∨ ∀ j, j < Nat.find hEv →
          (st.clockHand + (j + 1)) % st.numBufs ≠ st.clockHand := by
        refine Or.inr fun j hj => hand_shift_ne h1 j (by omega)
      obtain ⟨out, hout, hres⟩ := loop_reach st.clockHand (Nat.find hEv)
        (2 * st.numBufs) false st h1 hfind.1 (by omega) hskip hfind.2 hside
      exact ⟨out, hout, fun hAll' => absurd hAll' hAll, fun _ => ⟨_, hres⟩⟩
    · have hnoev : ∀ p, p < st.numBufs → ¬ Evictable (st.bufDescTable p) := by
        intro p hp hEvp
        obtain ⟨j, hj, hjp⟩ := exists_offset hp h1
        exact hEv ⟨j, hj, by rw [hjp]; exact hEvp⟩
      have hallv : ∀ p, p < st.numBufs → (st.bufDescTable p).valid = true :=
        fun p hp => (not_evictable (hnoev p hp)).1
      have hnoref : ∀ p, p < st.numBufs → (st.bufDescTable p).pinCnt = 0 →
          (st.bufDescTable p).refbit = true := by
        intro p hp hpin
        rcases (not_evictable (hnoev p hp)).2 with h | h
        · omega
        · exact h
      have hex : ∃ j, j < st.numBufs ∧
          (st.bufDescTable ((st.clockHand + j) % st.numBufs)).pinCnt = 0 := by
        by_contra hc
        apply hAll
        intro p hp
        refine ⟨hallv p hp, ?_⟩
        by_cases h : (st.bufDescTable p).pinCnt = 0
        · exfalso
          obtain ⟨j, hj, hjp⟩ := exists_offset hp h1
          exact hc ⟨j, hj, by rw [hjp]; exact h⟩
        · omega
      have hk0 := Nat.find_spec hex
      have hpre : ∀ j, j < Nat.find hex →
          0 < (st.bufDescTable ((st.clockHand + j) % st.numBufs)).pinCnt := by
        intro j hj
        have hmin := Nat.find_min hex hj
        by_cases h : (st.bufDescTable ((st.clockHand + j) % st.numBufs)).pinCnt = 0
        · exact absurd ⟨by omega, h⟩ hmin
        · omega
      have hside : (false = true) ∨ ∀ j, j < Nat.find hex →
          (st.clockHand + (j + 1)) % st.numBufs ≠ st.clockHand := by
        refine Or.inr fun j hj => hand_shift_ne h1 j (by omega)
      obtain ⟨out, fr, hout, hres⟩ := loop_secondChance st.clockHand (Nat.find hex)
        (2 * st.numBufs) false st h1 hk0.1 (by omega) hallv hnoref hpre hk0.2 hside
      exact ⟨out, hout, fun hAll' => absurd hAll' hAll, fun _ => ⟨fr, hres⟩⟩

/-! ## Preservation of the index/descriptor invariant -/

theorem IdxInv_transfer (st st' : BufMgr) (hN : st'.numBufs = st.numBufs)
    (hH : st'.hashTable = st.hashTable)
    (hd : ∀ i, (st'.bufDescTable i).valid = (st.bufDescTable i).valid ∧
      (st'.bufDescTable i).file = (st.bufDescTable i).file ∧
      (st'.bufDescTable i).pageNo = (st.bufDescTable i).pageNo) :
    IdxInv st → IdxInv st' := by
  rintro ⟨hfwd, hbwd⟩
  constructor
  · intro f p i hi
    rw [hH] at hi
    obtain ⟨h1, h2, h3, h4⟩ := hfwd f p i hi
    obtain ⟨e1, e2, e3⟩ := hd i
    exact ⟨by omega, e1.trans h2, e2.trans h3, e3.trans h4⟩
  · intro i hi hv
    obtain ⟨e1, e2, e3⟩ := hd i
    rw [hH, e2, e3]
    exact hbwd i (by omega) (e1.symm.trans hv)

theorem IdxInv_clearRef (st : BufMgr) (h : Nat) (hInv : IdxInv st) :
    IdxInv (advanceClock (clearRef st h)) := by
  refine IdxInv_transfer st _ rfl rfl ?_ hInv
  intro i
  by_cases hq : i = h
  · subst hq; simp
  · simp [hq]

theorem IdxInv_evictFrame (st : BufMgr) (i : Nat) (hi : i < st.numBufs)
    (hvalid : (st.bufDescTable i).valid = true) (hInv : IdxInv st) :
    IdxInv (clearDesc (hashRemove st (st.bufDescTable i).file
      (st.bufDescTable i).pageNo) i) := by
  obtain ⟨hfwd, hbwd⟩ := hInv
  have hkey := hbwd i hi hvalid
  constructor
  · intro f p q hq
    simp only [clearDesc_hash, hashRemove_hash] at hq
    by_cases hk : f = (st.bufDescTable i).file ∧ p = (st.bufDescTable i).pageNo
    · rw [if_pos hk] at hq
      cases hq
    · rw [if_neg hk] at hq
      obtain ⟨h1, h2, h3, h4⟩ := hfwd f p q hq
      have hqi : q ≠ i := by
        intro hqi
        subst hqi
        exact hk ⟨h3.symm, h4.symm⟩
      simp only [clearDesc_desc, hashRemove_desc, if_neg hqi]
      exact ⟨by simpa using h1, h2, h3, h4⟩
  · intro q hq hv
    by_cases hqi : q = i
    · subst hqi
      simp only [clearDesc_desc, hashRemove_desc, if_pos rfl] at hv
      cases hv
    · simp only [clearDesc_desc, hashRemove_desc, if_neg hqi] at hv ⊢
      simp only [clearDesc_hash, hashRemove_hash]
      have hq2 := hbwd q (by simpa using hq) hv
      by_cases hk : (st.bufDescTable q).file = (st.bufDescTable i).file ∧
          (st.bufDescTable q).pageNo = (st.bufDescTable i).pageNo
      · exfalso
        rw [hk.1, hk.2, hkey] at hq2
        cases hq2
        exact hqi rfl
      · rw [if_neg hk]
        exact hq2

theorem IdxInv_clearDirty (st : BufMgr) (h : Nat) (hInv : IdxInv st) :
    IdxInv (clearDirty st h) := by
  refine IdxInv_transfer st _ rfl rfl ?_ hInv
  intro i
  by_cases hq : i = h
  · subst hq; simp
  · simp [hq]

theorem IdxInv_victim (st : BufMgr) (hi : st.clockHand < st.numBufs)
    (hvalid : (st.bufDescTable st.clockHand).valid = true) (hInv : IdxInv st) :
    IdxInv (advanceClock (clearDesc (hashRemove
      (if (st.bufDescTable st.clockHand).dirty = true
       then clearDirty st st.clockHand else st)
      (st.bufDescTable st.clockHand).file
      (st.bufDescTable st.clockHand).pageNo) st.clockHand)) := by
  refine IdxInv_transfer _ _ rfl rfl (fun i => ⟨rfl, rfl, rfl⟩) ?_
  by_cases hd : (st.bufDescTable st.clockHand).dirty = true
  · rw [if_pos hd]
    have e1 : ((clearDirty st st.clockHand).bufDescTable st.clockHand).file
        = (st.bufDescTable st.clockHand).file := by simp
    have e2 : ((clearDirty st st.clockHand).bufDescTable st.clockHand).pageNo
        = (st.bufDescTable st.clockHand).pageNo := by simp
    have h3 := IdxInv_evictFrame (clearDirty st st.clockHand) st.clockHand
      (by simpa using hi) (by simp [hvalid]) (IdxInv_clearDirty st st.clockHand hInv)
    rw [e1, e2] at h3
    exact h3
  · rw [if_neg hd]
    exact IdxInv_evictFrame st st.clockHand hi hvalid hInv

theorem IdxInv_loop (sf : Nat) : ∀ (fuel : Nat) (fa : Bool) (st : BufMgr)
    (out : Outcome Nat), st.clockHand < st.numBufs → IdxInv st →
    allocBufLoop sf fuel fa st = some out → IdxInv out.state := by
  intro fuel
  induction fuel with
  | zero => intro fa st out _ _ h; simp [allocBufLoop] at h
  | succ fuel ih =>
    intro fa st out hh hInv h
    have hN : 0 < st.numBufs := by omega
    by_cases hv : (st.bufDescTable st.clockHand).valid = false
    · rw [loop_succ_invalid sf fuel fa hv] at h
      cases h
      exact IdxInv_transfer st _ rfl rfl (fun i => ⟨rfl, rfl, rfl⟩) hInv
    · have hv' : (st.bufDescTable st.clockHand).valid = true := by
        revert hv; cases (st.bufDescTable st.clockHand).valid <;> simp
      by_cases hp : 0 < (st.bufDescTable st.clockHand).pinCnt
      · rw [loop_succ_pinned sf fuel fa hv' hp] at h
        by_cases hc : (advanceClock (clearRef st st.clockHand)).clockHand = sf ∧ fa = false
        · rw [if_pos hc] at h
          cases h
          exact IdxInv_clearRef st st.clockHand hInv
        · rw [if_neg hc] at h
          exact ih fa (advanceClock (clearRef st st.clockHand)) out
            (by simpa using Nat.mod_lt _ hN)
            (IdxInv_clearRef st st.clockHand hInv) h
      · have hp' : (st.bufDescTable st.clockHand).pinCnt = 0 := by omega
        by_cases hr : (st.bufDescTable st.clockHand).refbit = true
        · rw [loop_succ_ref sf fuel fa hv' hp' hr] at h
          exact ih true (advanceClock (clearRef st st.clockHand)) out
            (by simpa using Nat.mod_lt _ hN)
            (IdxInv_clearRef st st.clockHand hInv) h
        · have hr' : (st.bufDescTable st.clockHand).refbit = false := by
            revert hr; cases (st.bufDescTable st.clockHand).refbit <;> simp
          rw [loop_succ_victim sf fuel fa hv' hp' hr'] at h
          cases h
          exact IdxInv_victim st hh hv' hInv

theorem IdxInv_fill (st : BufMgr) (f p fr : Nat) (hfr : fr < st.numBufs)
    (hinvalid : (st.bufDescTable fr).valid = false)
    (hnone : st.hashTable (some f) p = none) (hInv : IdxInv st) :
    IdxInv (fillFrame st f p fr) := by
  obtain ⟨hfwd, hbwd⟩ := hInv
  constructor
  · intro f' p' q hq
    simp only [fillFrame, updDesc_hashTable, hashInsert_hash] at hq
    by_cases hk : f' = some f ∧ p' = p
    · rw [if_pos hk] at hq
      cases hq
      refine ⟨by simpa using hfr, ?_, ?_, ?_⟩
      · simp [fillFrame, BufDesc.set]
      · simp [fillFrame, BufDesc.set, hk.1]
      · simp [fillFrame, BufDesc.set, hk.2]
    · rw [if_neg hk] at hq
      obtain ⟨h1, h2, h3, h4⟩ := hfwd f' p' q hq
      have hqfr : q ≠ fr := by
        intro he
        subst he
        rw [hinvalid] at h2
        cases h2
      simp only [fillFrame, updDesc_desc, hashInsert_desc, if_neg hqfr]
      exact ⟨by simpa using h1, h2, h3, h4⟩
  · intro q hq hv
    by_cases hqfr : q = fr
    · subst hqfr
      simp only [fillFrame, updDesc_desc, hashInsert_desc, if_pos rfl] at hv ⊢
      simp [BufDesc.set]
    · simp only [fillFrame, updDesc_desc, hashInsert_desc, if_neg hqfr] at hv ⊢
      have hq2 := hbwd q (by simpa using hq) hv
      simp only [updDesc_hashTable, hashInsert_hash]
      by_cases hk : (st.bufDescTable q).file = some f ∧ (st.bufDescTable q).pageNo = p
      · exfalso
        rw [hk.1, hk.2, hnone] at hq2
        cases hq2
      · rw [if_neg hk]
        exact hq2

theorem flush_succ_pinned (f i rem : Nat) (st : BufMgr) (evs : List FileOp)
    (hm : (st.bufDescTable i).file = some f)
    (hp : 0 < (st.bufDescTable i).pinCnt) :
    flushFileAux f i (rem+1) st evs =
      ⟨Res.err (BufError.pagePinned f (st.bufDescTable i).pageNo i), st, evs⟩ := by
  simp [flushFileAux, hm, hp]

theorem flush_succ_bad (f i rem : Nat) (st : BufMgr) (evs : List FileOp)
    (hm : (st.bufDescTable i).file = some f)
    (hp : (st.bufDescTable i).pinCnt = 0)
    (hv : (st.bufDescTable i).valid = false) :
    flushFileAux f i (rem+1) st evs =
      ⟨Res.err (BufError.badBuffer i (st.bufDescTable i).dirty
         (st.bufDescTable i).valid (st.bufDescTable i).refbit), st, evs⟩ := by
  simp [flushFileAux, hm, hp, hv]

theorem flush_succ_proc (f i rem : Nat) (st : BufMgr) (evs : List FileOp)
    (hm : (st.bufDescTable i).file = some f)
    (hp : (st.bufDescTable i).pinCnt = 0)
    (hv : (st.bufDescTable i).valid = true) :
    flushFileAux f i (rem+1) st evs =
      flushFileAux f (i+1) rem
        (clearDesc (hashRemove
          (if (st.bufDescTable i).dirty = true then clearDirty st i else st)
          (some f) (st.bufDescTable i).pageNo) i)
        (evs ++ (if (st.bufDescTable i).dirty = true
                 then [FileOp.writePage (some f) (st.bufPool i)] else [])) := by
  simp [flushFileAux, hm, hp, hv]

theorem flush_succ_skip (f i rem : Nat) (st : BufMgr) (evs : List FileOp)
    (hm : ¬ (st.bufDescTable i).file = some f) :
    flushFileAux f i (rem+1) st evs = flushFileAux f (i+1) rem st evs := by
  simp [flushFileAux, hm]

theorem IdxInv_flushStep (st : BufMgr) (f i : Nat) (hi : i < st.numBufs)
    (hm : (st.bufDescTable i).file = some f)
    (hvalid : (st.bufDescTable i).valid = true) (hInv : IdxInv st) :
    IdxInv (clearDesc (hashRemove
      (if (st.bufDescTable i).dirty = true then clearDirty st i else st)
      (some f) (st.bufDescTable i).pageNo) i) := by
  by_cases hd : (st.bufDescTable i).dirty = true
  · rw [if_pos hd]
    have e1 : ((clearDirty st i).bufDescTable i).file = some f := by simp [hm]
    have e2 : ((clearDirty st i).bufDescTable i).pageNo
        = (st.bufDescTable i).pageNo := by simp
    have h3 := IdxInv_evictFrame (clearDirty st i) i (by simpa using hi)
      (by simp [hvalid]) (IdxInv_clearDirty st i hInv)
    rw [e1, e2] at h3
    exact h3
  · rw [if_neg hd]
    have h3 := IdxInv_evictFrame st i hi hvalid hInv
    rw [hm] at h3
    exact h3

theorem IdxInv_flushAux (f : Nat) : ∀ (rem i : Nat) (st : BufMgr) (evs : List FileOp),
    i + rem = st.numBufs → IdxInv st →
    IdxInv (flushFileAux f i rem st evs).state := by
  intro rem
  induction rem with
  | zero => intro i st evs _ hInv; exact hInv
  | succ rem ih =>
    intro i st evs hsum hInv
    have hi : i < st.numBufs := by omega
    by_cases hm : (st.bufDescTable i).file = some f
    · by_cases hp : 0 < (st.bufDescTable i).pinCnt
      · rw [flush_succ_pinned f i rem st evs hm hp]
        exact hInv
      · have hp0 : (st.bufDescTable i).pinCnt = 0 := by omega
        by_cases hv : (st.bufDescTable i).valid = false
        · rw [flush_succ_bad f i rem st evs hm hp0 hv]
          exact hInv
        · have hv' : (st.bufDescTable i).valid = true := by
            revert hv; cases (st.bufDescTable i).valid <;> simp
          rw [flush_succ_proc f i rem st evs hm hp0 hv']
          refine ih (i+1) _ _ ?_ (IdxInv_flushStep st f i hi hm hv' hInv)
          by_cases hd : (st.bufDescTable i).dirty = true <;> simp [hd] <;> omega
    · rw [flush_succ_skip f i rem st evs hm]
      exact ih (i+1) st evs (by omega) hInv

theorem IdxInv_unPin (st : BufMgr) (f p : Nat) (d : Bool) (hInv : IdxInv st) :
    IdxInv (unPinPage st f p d).state := by
  unfold unPinPage
  cases hl : st.hashTable (some f) p with
  | none => exact hInv
  | some fr =>
    dsimp only
    by_cases hp : (st.bufDescTable fr).pinCnt = 0
    · rw [if_pos hp]
      exact hInv
    · rw [if_neg hp]
      refine IdxInv_transfer st _ rfl rfl ?_ hInv
      intro i
      by_cases hq : i = fr
      · subst hq; simp
      · simp [hq]

theorem IdxInv_dispose (st : BufMgr) (f p : Nat) (hInv : IdxInv st) :
    IdxInv (disposePage st f p).state := by
  unfold disposePage
  cases hl : st.hashTable (some f) p with
  | none => exact hInv
  | some fr =>
    obtain ⟨h1, h2, h3, h4⟩ := hInv.1 (some f) p fr hl
    have h5 := IdxInv_evictFrame st fr h1 h2 hInv
    rw [h3, h4] at h5
    exact h5

theorem IdxInv_readPage (st : BufMgr) (f p : Nat) (pg : Page) (out : Outcome Nat)
    (hWF : WF st) (hInv : IdxInv st)
    (h : readPage st f p pg = some out) : IdxInv out.state := by
  obtain ⟨h0, h1⟩ := hWF
  unfold readPage at h
  cases hl : st.hashTable (some f) p with
  | some fr =>
    simp only [hl] at h
    cases h
    refine IdxInv_transfer st _ rfl rfl ?_ hInv
    intro i
    by_cases hq : i = fr
    · subst hq; simp
    · simp [hq]
  | none =>
    simp only [hl] at h
    cases ha : allocBuf st with
    | none => rw [ha] at h; cases h
    | some a =>
      simp only [ha] at h
      cases hr : a.result with
      | err e =>
        simp only [hr] at h
        cases h
        exact IdxInv_loop st.clockHand (2 * st.numBufs) false st a h1 hInv ha
      | ok fr =>
        simp only [hr] at h
        cases h
        have hbasic := loop_basic st.clockHand (2 * st.numBufs) false st a h1 ha
        have hspec := loop_ok_spec st.clockHand (2 * st.numBufs) false st a fr ha hr
        have hIa : IdxInv a.state :=
          IdxInv_loop st.clockHand (2 * st.numBufs) false st a h1 hInv ha
        have hfr : fr < a.state.numBufs := by
          rw [hbasic.1]; exact hbasic.2.2 fr hr
        have hinval : (a.state.bufDescTable fr).valid = false := by
          rcases hspec with ⟨hval, hdesc, _, _⟩ | ⟨_, _, _, hdesc, _⟩
          · rw [hdesc]; exact hval
          · rw [hdesc]; rfl
        have hnone : a.state.hashTable (some f) p = none := by
          rcases loop_hash_mono st.clockHand (2 * st.numBufs) false st a (some f) p ha
            with h2 | h2
          · rw [h2]; exact hl
          · exact h2
        have hIp : IdxInv (updPool a.state fr pg) :=
          IdxInv_transfer a.state _ rfl rfl (fun i => ⟨rfl, rfl, rfl⟩) hIa
        exact IdxInv_fill (updPool a.state fr pg) f p fr (by simpa using hfr)
          (by simpa using hinval) (by simpa using hnone) hIp

theorem IdxInv_allocPage (st : BufMgr) (f : Nat) (npg : Page)
    (out : Outcome (Nat × Nat)) (hWF : WF st) (hInv : IdxInv st)
    (hfresh : st.hashTable (some f) npg.page_number = none)
    (h : allocPage st f npg = some out) : IdxInv out.state := by
  obtain ⟨h0, h1⟩ := hWF
  unfold allocPage at h
  cases ha : allocBuf st with
  | none => rw [ha] at h; cases h
  | some a =>
    simp only [ha] at h
    cases hr : a.result with
    | err e =>
      simp only [hr] at h
      cases h
      exact IdxInv_loop st.clockHand (2 * st.numBufs) false st a h1 hInv ha
    | ok fr =>
      simp only [hr] at h
      cases h
      have hbasic := loop_basic st.clockHand (2 * st.numBufs) false st a h1 ha
      have hspec := loop_ok_spec st.clockHand (2 * st.numBufs) false st a fr ha hr
      have hIa : IdxInv a.state :=
        IdxInv_loop st.clockHand (2 * st.numBufs) false st a h1 hInv ha
      have hfr : fr < a.state.numBufs := by
        rw [hbasic.1]; exact hbasic.2.2 fr hr
      have hinval : (a.state.bufDescTable fr).valid = false := by
        rcases hspec with ⟨hval, hdesc, _, _⟩ | ⟨_, _, _, hdesc, _⟩
        · rw [hdesc]; exact hval
        · rw [hdesc]; rfl
      have hnone : a.state.hashTable (some f) npg.page_number = none := by
        rcases loop_hash_mono st.clockHand (2 * st.numBufs) false st a (some f)
          npg.page_number ha with h2 | h2
        · rw [h2]; exact hfresh
        · exact h2
      have hIp : IdxInv (updPool a.state fr npg) :=
        IdxInv_transfer a.state _ rfl rfl (fun i => ⟨rfl, rfl, rfl⟩) hIa
      exact IdxInv_fill (updPool a.state fr npg) f npg.page_number fr
        (by simpa using hfr) (by simpa using hinval) (by simpa using hnone) hIp

theorem writeList_congr (st st' : BufMgr) (f : Nat) : ∀ (rem i : Nat),
    (∀ j, i ≤ j → st'.bufDescTable j = st.bufDescTable j) →
    st'.bufPool = st.bufPool →
    writeList st' f i rem = writeList st f i rem := by
  intro rem
  induction rem with
  | zero => intro i _ _; rfl
  | succ rem ih =>
    intro i hd hp
    unfold writeList
    rw [hd i (le_refl i), hp, ih (i+1) (fun j hj => hd j (by omega)) hp]

theorem writeList_succ (st : BufMgr) (f i rem : Nat) :
    writeList st f i (rem+1) =
      (if (st.bufDescTable i).file = some f ∧ (st.bufDescTable i).dirty = true
       then [FileOp.writePage (some f) (st.bufPool i)] else [])
      ++ writeList st f (i+1) rem := rfl

theorem flushAux_clean (f : Nat) : ∀ (rem i : Nat) (st : BufMgr) (evs : List FileOp),
    (∀ j, i ≤ j → j < i + rem → ¬ ((st.bufDescTable j).file = some f ∧
       (0 < (st.bufDescTable j).pinCnt ∨ (st.bufDescTable j).valid = false))) →
    (flushFileAux f i rem st evs).result = Res.ok () ∧
    (∀ j, i ≤ j → j < i + rem → (st.bufDescTable j).file = some f →
      (flushFileAux f i rem st evs).state.bufDescTable j = BufDesc.clear ∧
      (flushFileAux f i rem st evs).state.hashTable (some f)
        ((st.bufDescTable j).pageNo) = none) ∧
    (∀ j, (j < i ∨ i + rem ≤ j ∨ ¬ (st.bufDescTable j).file = some f) →
      (flushFileAux f i rem st evs).state.bufDescTable j = st.bufDescTable j) ∧
    (∀ fk pk, (flushFileAux f i rem st evs).state.hashTable fk pk
        = st.hashTable fk pk ∨
      (flushFileAux f i rem st evs).state.hashTable fk pk = none) ∧
    (flushFileAux f i rem st evs).events = evs ++ writeList st f i rem := by
  intro rem
  induction rem with
  | zero =>
    intro i st evs _
    refine ⟨rfl, ?_, fun j _ => rfl, fun fk pk => Or.inl rfl, ?_⟩
    · intro j hj1 hj2 _
      omega
    · exact (List.append_nil evs).symm
  | succ rem ih =>
    intro i st evs hno
    by_cases hm : (st.bufDescTable i).file = some f
    · have hni := hno i (le_refl i) (by omega)
      have hp0 : (st.bufDescTable i).pinCnt = 0 := by
        by_contra hc
        exact hni ⟨hm, Or.inl (by omega)⟩
      have hv' : (st.bufDescTable i).valid = true := by
        by_contra hc
        refine hni ⟨hm, Or.inr ?_⟩
        revert hc; cases (st.bufDescTable i).valid <;> simp
      rw [flush_succ_proc f i rem st evs hm hp0 hv']
      have hdescP : ∀ j, j ≠ i →
          (clearDesc (hashRemove
            (if (st.bufDescTable i).dirty = true then clearDirty st i else st)
            (some f) (st.bufDescTable i).pageNo) i).bufDescTable j
          = st.bufDescTable j := by
        intro j hj
        by_cases hd : (st.bufDescTable i).dirty = true <;> simp [hd, hj]
      have hdescPi : (clearDesc (hashRemove
            (if (st.bufDescTable i).dirty = true then clearDirty st i else st)
            (some f) (st.bufDescTable i).pageNo) i).bufDescTable i
          = BufDesc.clear := by simp
      have hpoolP : (clearDesc (hashRemove
            (if (st.bufDescTable i).dirty = true then clearDirty st i else st)
            (some f) (st.bufDescTable i).pageNo) i).bufPool = st.bufPool := by
        by_cases hd : (st.bufDescTable i).dirty = true <;> simp [hd]
      have hhashP : ∀ fk pk, (clearDesc (hashRemove
            (if (st.bufDescTable i).dirty = true then clearDirty st i else st)
            (some f) (st.bufDescTable i).pageNo) i).hashTable fk pk
          = if fk = some f ∧ pk = (st.bufDescTable i).pageNo then none
            else st.hashTable fk pk := by
        intro fk pk
        by_cases hd : (st.bufDescTable i).dirty = true <;> simp [hd]
      obtain ⟨ih1, ih2, ih3, ih4, ih5⟩ := ih (i+1) _
        (evs ++ (if (st.bufDescTable i).dirty = true
                 then [FileOp.writePage (some f) (st.bufPool i)] else []))
        (by
          intro j hj1 hj2
          rw [hdescP j (by omega)]
          exact hno j (by omega) (by omega))
      refine ⟨ih1, ?_, ?_, ?_, ?_⟩
      · intro j hj1 hj2 hjm
        by_cases hji : j = i
        · subst hji
          constructor
          · rw [ih3 j (Or.inl (by omega)), hdescPi]
          · rcases ih4 (some f) ((st.bufDescTable j).pageNo) with h2 | h2
            · rw [h2, hhashP]
              simp
            · exact h2
        · have hm2 := ih2 j (by omega) (by omega) (by rw [hdescP j hji]; exact hjm)
          rw [hdescP j hji] at hm2
          exact hm2
      · intro j hj
        have hji : j ≠ i := by
          rcases hj with h | h | h
          · omega
          · omega
          · intro he; subst he; exact h hm
        have hside : j < i + 1 ∨ i + 1 + rem ≤ j ∨
            ¬ ((clearDesc (hashRemove
                (if (st.bufDescTable i).dirty = true then clearDirty st i else st)
                (some f) (st.bufDescTable i).pageNo) i).bufDescTable j).file
              = some f := by
          rcases hj with h | h | h
          · exact Or.inl (by omega)
          · exact Or.inr (Or.inl (by omega))
          · exact Or.inr (Or.inr (by rw [hdescP j hji]; exact h))
        rw [ih3 j hside, hdescP j hji]
      · intro fk pk
        rcases ih4 fk pk with h2 | h2
        · rw [h2, hhashP]
          by_cases hk : fk = some f ∧ pk = (st.bufDescTable i).pageNo
          · rw [if_pos hk]
            exact Or.inr rfl
          · rw [if_neg hk]
            exact Or.inl rfl
        · exact Or.inr h2
      · rw [ih5]
        rw [writeList_congr st _ f rem (i+1) (fun j hj => hdescP j (by omega)) hpoolP]
        rw [List.append_assoc, writeList_succ]
        by_cases hd : (st.bufDescTable i).dirty = true
        · simp [hd, hm]
        · simp [hd, hm]
    · rw [flush_succ_skip f i rem st evs hm]
      obtain ⟨ih1, ih2, ih3, ih4, ih5⟩ := ih (i+1) st evs
        (fun j hj1 hj2 => hno j (by omega) (by omega))
      refine ⟨ih1, ?_, ?_, ih4, ?_⟩
      · intro j hj1 hj2 hjm
        have hji : j ≠ i := by
          intro he; subst he; exact hm hjm
        exact ih2 j (by omega) (by omega) hjm
      · intro j hj
        refine ih3 j ?_
        rcases hj with h | h | h
        · exact Or.inl (by omega)
        · exact Or.inr (Or.inl (by omega))
        · exact Or.inr (Or.inr h)
      · rw [ih5, writeList_succ]
        simp [hm]

theorem flushAux_offend (f : Nat) : ∀ (rem i : Nat) (st : BufMgr) (evs : List FileOp)
    (j0 : Nat), i ≤ j0 → j0 < i + rem →
    ((st.bufDescTable j0).file = some f ∧
      (0 < (st.bufDescTable j0).pinCnt ∨ (st.bufDescTable j0).valid = false)) →
    (∀ j, i ≤ j → j < j0 → ¬ ((st.bufDescTable j).file = some f ∧
       (0 < (st.bufDescTable j).pinCnt ∨ (st.bufDescTable j).valid = false))) →
    (flushFileAux f i rem st evs).result =
      (if 0 < (st.bufDescTable j0).pinCnt
       then Res.err (BufError.pagePinned f (st.bufDescTable j0).pageNo j0)
       else Res.err (BufError.badBuffer j0 (st.bufDescTable j0).dirty
              (st.bufDescTable j0).valid (st.bufDescTable j0).refbit)) ∧
    (∀ j, j0 ≤ j → (flushFileAux f i rem st evs).state.bufDescTable j
        = st.bufDescTable j) ∧
    (∀ j, i ≤ j → j < j0 → (st.bufDescTable j).file = some f →
      (flushFileAux f i rem st evs).state.bufDescTable j = BufDesc.clear ∧
      (flushFileAux f i rem st evs).state.hashTable (some f)
        ((st.bufDescTable j).pageNo) = none) ∧
    (∀ j, j < i ∨ ¬ (st.bufDescTable j).file = some f →
      (flushFileAux f i rem st evs).state.bufDescTable j = st.bufDescTable j) ∧
    (∀ fk pk, (flushFileAux f i rem st evs).state.hashTable fk pk
        = st.hashTable fk pk ∨
      (flushFileAux f i rem st evs).state.hashTable fk pk = none) ∧
    (flushFileAux f i rem st evs).events = evs ++ writeList st f i (j0 - i) := by
  intro rem
  induction rem with
  | zero =>
    intro i st evs j0 h1 h2 _ _
    exact absurd h2 (by omega)
  | succ rem ih =>
    intro i st evs j0 h1 h2 hoff hpre
    by_cases hij : i = j0
    · subst hij
      obtain ⟨hm, hdisj⟩ := hoff
      by_cases hp : 0 < (st.bufDescTable i).pinCnt
      · rw [flush_succ_pinned f i rem st evs hm hp]
        refine ⟨by rw [if_pos hp], fun j _ => rfl, ?_, fun j _ => rfl,
          fun fk pk => Or.inl rfl, ?_⟩
        · intro j hj1 hj2 _
          omega
        · rw [show i - i = 0 from by omega]
          exact (List.append_nil evs).symm
      · have hp0 : (st.bufDescTable i).pinCnt = 0 := by omega
        have hv : (st.bufDescTable i).valid = false := by
          rcases hdisj with h | h
          · omega
          · exact h
        rw [flush_succ_bad f i rem st evs hm hp0 hv]
        refine ⟨by rw [if_neg hp], fun j _ => rfl, ?_, fun j _ => rfl,
          fun fk pk => Or.inl rfl, ?_⟩
        · intro j hj1 hj2 _
          omega
        · rw [show i - i = 0 from by omega]
          exact (List.append_nil evs).symm
    · have hij2 : i < j0 := by omega
      by_cases hm : (st.bufDescTable i).file = some f
      · have hni := hpre i (le_refl i) hij2
        have hp0 : (st.bufDescTable i).pinCnt = 0 := by
          by_contra hc
          exact hni ⟨hm, Or.inl (by omega)⟩
        have hv' : (st.bufDescTable i).valid = true := by
          by_contra hc
          refine hni ⟨hm, Or.inr ?_⟩
          revert hc; cases (st.bufDescTable i).valid <;> simp
        rw [flush_succ_proc f i rem st evs hm hp0 hv']
        have hdescP : ∀ j, j ≠ i →
            (clearDesc (hashRemove
              (if (st.bufDescTable i).dirty = true then clearDirty st i else st)
              (some f) (st.bufDescTable i).pageNo) i).bufDescTable j
            = st.bufDescTable j := by
          intro j hj
          by_cases hd : (st.bufDescTable i).dirty = true <;> simp [hd, hj]
        have hdescPi : (clearDesc (hashRemove
              (if (st.bufDescTable i).dirty = true then clearDirty st i else st)
              (some f) (st.bufDescTable i).pageNo) i).bufDescTable i
            = BufDesc.clear := by simp
        have hpoolP : (clearDesc (hashRemove
              (if (st.bufDescTable i).dirty = true then clearDirty st i else st)
              (some f) (st.bufDescTable i).pageNo) i).bufPool = st.bufPool := by
          by_cases hd : (st.bufDescTable i).dirty = true <;> simp [hd]
        have hhashP : ∀ fk pk, (clearDesc (hashRemove
              (if (st.bufDescTable i).dirty = true then clearDirty st i else st)
              (some f) (st.bufDescTable i).pageNo) i).hashTable fk pk
            = if fk = some f ∧ pk = (st.bufDescTable i).pageNo then none
              else st.hashTable fk pk := by
          intro fk pk
          by_cases hd : (st.bufDescTable i).dirty = true <;> simp [hd]
        obtain ⟨ih1, ih2, ih3, ih4, ih5, ih6⟩ := ih (i+1) _
          (evs ++ (if (st.bufDescTable i).dirty = true
                   then [FileOp.writePage (some f) (st.bufPool i)] else []))
          j0 (by omega) (by omega)
          (by rw [hdescP j0 (by omega)]; exact hoff)
          (by
            intro j hj1 hj2
            rw [hdescP j (by omega)]
            exact hpre j (by omega) hj2)
        refine ⟨?_, ?_, ?_, ?_, ?_, ?_⟩
        · rw [ih1, hdescP j0 (by omega)]
        · intro j hj
          rw [ih2 j hj, hdescP j (by omega)]
        · intro j hj1 hj2 hjm
          by_cases hji : j = i
          · subst hji
            constructor
            · rw [ih4 j (Or.inl (by omega)), hdescPi]
            · rcases ih5 (some f) ((st.bufDescTable j).pageNo) with h2 | h2
              · rw [h2, hhashP]
                simp
              · exact h2
          · have hm2 := ih3 j (by omega) (by omega)
              (by rw [hdescP j hji]; exact hjm)
            rw [hdescP j hji] at hm2
            exact hm2
        · intro j hj
          have hji : j ≠ i := by
            rcases hj with h | h
            · omega
            · intro he; subst he; exact h hm
          have hside : j < i + 1 ∨
              ¬ ((clearDesc (hashRemove
                  (if (st.bufDescTable i).dirty = true then clearDirty st i else st)
                  (some f) (st.bufDescTable i).pageNo) i).bufDescTable j).file
                = some f := by
            rcases hj with h | h
            · exact Or.inl (by omega)
            · exact Or.inr (by rw [hdescP j hji]; exact h)
          rw [ih4 j hside, hdescP j hji]
        · intro fk pk
          rcases ih5 fk pk with h2 | h2
          · rw [h2, hhashP]
            by_cases hk : fk = some f ∧ pk = (st.bufDescTable i).pageNo
            · rw [if_pos hk]
              exact Or.inr rfl
            · rw [if_neg hk]
              exact Or.inl rfl
          · exact Or.inr h2
        · rw [ih6]
          rw [writeList_congr st _ f (j0 - (i+1)) (i+1)
            (fun j hj => hdescP j (by omega)) hpoolP]
          rw [List.append_assoc]
          rw [show j0 - i = (j0 - (i+1)) + 1 from by omega, writeList_succ]
          by_cases hd : (st.bufDescTable i).dirty = true
          · simp [hd, hm]
          · simp [hd, hm]
      · rw [flush_succ_skip f i rem st evs hm]
        obtain ⟨ih1, ih2, ih3, ih4, ih5, ih6⟩ := ih (i+1) st evs j0 (by omega)
          (by omega) hoff (fun j hj1 hj2 => hpre j (by omega) hj2)
        refine ⟨ih1, ih2, ?_, ?_, ih5, ?_⟩
        · intro j hj1 hj2 hjm
          have hji : j ≠ i := by
            intro he; subst he; exact hm hjm
          exact ih3 j (by omega) (by omega) hjm
        · intro j hj
          refine ih4 j ?_
          rcases hj with h | h
          · exact Or.inl (by omega)
          · exact Or.inr h
        · rw [ih6]
          rw [show j0 - i = (j0 - (i+1)) + 1 from by omega, writeList_succ]
          simp [hm]

/-! ## Claim theorems -/

/-- C1, counterexample: the claim says a valid, pinned frame under the hand
is skipped with every descriptor field — in particular the ref bit —
unchanged.  In `stPinned` the single frame is valid and pinned with its ref
bit set, yet after `allocBuf` (whose scan only ever meets this pinned
frame) the ref bit is cleared: the pinned branch of the scan executes
`bufDescTable[clockHand].refbit = 0`. -/
theorem C1_pinned_skip_cex :
    (stPinned.bufDescTable 0).valid = true ∧
    0 < (stPinned.bufDescTable 0).pinCnt ∧
    (stPinned.bufDescTable 0).refbit = true ∧
    ((allocBuf stPinned).map fun o => (o.state.bufDescTable 0).refbit)
      = some false := by
  refine ⟨by decide, by decide, by decide, by decide⟩

/-- C1, amended: whenever the frame under the hand is valid with pin count
greater than zero, one iteration of the clock scan does not select that
frame, advances the hand by one (mod pool size), and leaves every
descriptor field of that frame except the ref bit unchanged — the ref bit
is cleared; the hash table, the pool and all other descriptors are
untouched. -/
theorem C1_pinned_skip (st : BufMgr) (sf fuel : Nat) (fa : Bool)
    (hv : (st.bufDescTable st.clockHand).valid = true)
    (hp : 0 < (st.bufDescTable st.clockHand).pinCnt) :
    allocBufLoop sf (fuel+1) fa st =
      (if (advanceClock (clearRef st st.clockHand)).clockHand = sf ∧ fa = false
       then some ⟨Res.err BufError.bufferExceeded,
                  advanceClock (clearRef st st.clockHand), []⟩
       else allocBufLoop sf fuel fa (advanceClock (clearRef st st.clockHand))) ∧
    (advanceClock (clearRef st st.clockHand)).clockHand
      = (st.clockHand + 1) % st.numBufs ∧
    (advanceClock (clearRef st st.clockHand)).bufDescTable st.clockHand
      = { st.bufDescTable st.clockHand with refbit := false } ∧
    (∀ j, j ≠ st.clockHand →
      (advanceClock (clearRef st st.clockHand)).bufDescTable j
        = st.bufDescTable j) ∧
    (advanceClock (clearRef st st.clockHand)).hashTable = st.hashTable ∧
    (advanceClock (clearRef st st.clockHand)).bufPool = st.bufPool := by
  refine ⟨loop_succ_pinned sf fuel fa hv hp, by simp, by simp, ?_, rfl, rfl⟩
  intro j hj
  simp [hj]

/-- Witness for the amended C1 at a concrete pinned one-frame pool. -/
theorem C1_pinned_skip_witness :
    (stPinned.bufDescTable stPinned.clockHand).valid = true ∧
    0 < (stPinned.bufDescTable stPinned.clockHand).pinCnt ∧
    (advanceClock (clearRef stPinned stPinned.clockHand)).bufDescTable
        stPinned.clockHand
      = { stPinned.bufDescTable stPinned.clockHand with refbit := false } :=
  ⟨by decide, by decide,
    (C1_pinned_skip stPinned 0 1 false (by decide) (by decide)).2.2.1⟩

/-- C2: whenever the clock allocator returns a frame that was valid in the
starting state (a victim, as opposed to an empty frame), that frame was
unpinned, the call performed exactly one physical write — of that frame's
pool content to its owning file — if the frame was dirty and none
otherwise, the victim's (file, page) entry is gone from the hash table,
and the victim's descriptor is cleared (so in particular its dirty bit). -/
theorem C2_eviction (st : BufMgr) (out : Outcome Nat) (fr : Nat)
    (h : allocBuf st = some out) (hres : out.result = Res.ok fr)
    (hvalid : (st.bufDescTable fr).valid = true) :
    (st.bufDescTable fr).pinCnt = 0 ∧
    out.events = (if (st.bufDescTable fr).dirty = true
                  then [FileOp.writePage (st.bufDescTable fr).file
                          (st.bufPool fr)]
                  else []) ∧
    out.state.hashTable (st.bufDescTable fr).file (st.bufDescTable fr).pageNo
      = none ∧
    out.state.bufDescTable fr = BufDesc.clear := by
  have hspec := loop_ok_spec st.clockHand (2 * st.numBufs) false st out fr h hres
  rcases hspec with ⟨hval, _⟩ | ⟨_, h2, h3, h4, h5⟩
  · rw [hvalid] at hval
    cases hval
  · exact ⟨h2, h3, h5, h4⟩

/-- Witness for C2: evicting the dirty resident page (file 3, page 7) of
`stDirty` writes it back once and clears the descriptor. -/
theorem C2_eviction_witness :
    (stDirty.bufDescTable 0).valid = true ∧
    ∃ out, allocBuf stDirty = some out ∧ out.result = Res.ok 0 ∧
      out.state.bufDescTable 0 = BufDesc.clear ∧
      out.events = [FileOp.writePage (some 3) ⟨7, 42⟩] := by
  refine ⟨by decide, _, rfl, rfl, ?_, ?_⟩
  · exact (C2_eviction stDirty _ 0 rfl rfl (by decide)).2.2.2
  · exact (C2_eviction stDirty _ 0 rfl rfl (by decide)).2.1

/-- C3: on every well-formed pool state the clock scan of `allocBuf`
terminates within fuel `2 * numBufs`, i.e. within at most 2·numBufs
iterations.  Since each iteration advances the hand by exactly one frame
(mod numBufs), the iterations occupy consecutive hand positions, so the
hand visits each frame at most twice before the call returns a frame or
raises the pool-exhausted error. -/
theorem C3_termination (st : BufMgr) (hWF : WF st) :
    ∃ out, allocBufLoop st.clockHand (2 * st.numBufs) false st = some out ∧
      allocBuf st = some out := by
  obtain ⟨out, hout, _, _⟩ := alloc_cases st hWF.1 hWF.2
  exact ⟨out, hout, hout⟩

/-- Witness for C3 at a concrete one-frame pool. -/
theorem C3_termination_witness :
    WF stDirty ∧
    ∃ out, allocBufLoop stDirty.clockHand (2 * stDirty.numBufs) false stDirty
        = some out ∧ allocBuf stDirty = some out :=
  ⟨⟨by decide, by decide⟩, C3_termination stDirty ⟨by decide, by decide⟩⟩

/-- C4: `allocBuf` raises the pool-exhausted error iff every frame is valid
and pinned (part 1); consequently, in a fully valid-and-pinned pool a
`readPage` of a non-resident page propagates the pool-exhausted error
(part 2); and after `unPinPage` releases the single pin of one resident
page, the same `readPage` succeeds (part 3). -/
theorem C4_exhaustion (st : BufMgr) (f p f2 p2 fr2 : Nat) (pg : Page)
    (hWF : WF st) :
    ((∃ out, allocBuf st = some out ∧
        out.result = Res.err BufError.bufferExceeded)
      ↔ (∀ i, i < st.numBufs → (st.bufDescTable i).valid = true ∧
           0 < (st.bufDescTable i).pinCnt)) ∧
    (st.hashTable (some f) p = none →
     (∀ i, i < st.numBufs → (st.bufDescTable i).valid = true ∧
        0 < (st.bufDescTable i).pinCnt) →
     ∃ out, readPage st f p pg = some out ∧
       out.result = Res.err BufError.bufferExceeded) ∧
    ((∀ i, i < st.numBufs → (st.bufDescTable i).valid = true) →
     st.hashTable (some f2) p2 = some fr2 → fr2 < st.numBufs →
     (st.bufDescTable fr2).pinCnt = 1 →
     st.hashTable (some f) p = none →
     ∃ out fr, readPage (unPinPage st f2 p2 false).state f p pg = some out ∧
       out.result = Res.ok fr) := by
  obtain ⟨out0, hout0, himp1, himp2⟩ := alloc_cases st hWF.1 hWF.2
  refine ⟨⟨?_, ?_⟩, ?_, ?_⟩
  · rintro ⟨out, hout, hres⟩
    by_contra hnall
    have hex : ∃ i, i < st.numBufs ∧ ((st.bufDescTable i).valid = false ∨
        (st.bufDescTable i).pinCnt = 0) := by
      by_contra hc
      apply hnall
      intro i hi
      constructor
      · by_cases hv : (st.bufDescTable i).valid = true
        · exact hv
        · exact absurd ⟨i, hi, Or.inl (by
            revert hv; cases (st.bufDescTable i).valid <;> simp)⟩ hc
      · by_cases hp2 : (st.bufDescTable i).pinCnt = 0
        · exact absurd ⟨i, hi, Or.inr hp2⟩ hc
        · omega
    obtain ⟨fr, hokr⟩ := himp2 hex
    have he : out = out0 := by
      rw [hout] at hout0
      cases hout0
      rfl
    rw [he, hokr] at hres
    cases hres
  · intro hall
    exact ⟨out0, hout0, himp1 hall⟩
  · intro hnone hall
    refine ⟨⟨Res.err BufError.bufferExceeded, out0.state, out0.events⟩, ?_, rfl⟩
    simp only [readPage, hnone, hout0, himp1 hall]
  · intro hallv hl2 hfr2N hpin1 hnone
    have hpin0 : ¬ (st.bufDescTable fr2).pinCnt = 0 := by omega
    have hst2 : (unPinPage st f2 p2 false).state
        = updDesc st fr2 { st.bufDescTable fr2 with
            pinCnt := (st.bufDescTable fr2).pinCnt - 1,
            dirty := if false then true else (st.bufDescTable fr2).dirty } := by
      simp only [unPinPage, hl2]
      rw [if_neg hpin0]
    rw [hst2]
    have hWF2 : WF (updDesc st fr2 { st.bufDescTable fr2 with
        pinCnt := (st.bufDescTable fr2).pinCnt - 1,
        dirty := if false then true else (st.bufDescTable fr2).dirty }) :=
      ⟨hWF.1, hWF.2⟩
    obtain ⟨out1, hout1, _, himp4⟩ := alloc_cases _ hWF2.1 hWF2.2
    obtain ⟨fr, hok⟩ := himp4 ⟨fr2, by simpa using hfr2N, Or.inr (by
      simp only [updDesc_desc]
      rw [if_pos trivial]
      show (st.bufDescTable fr2).pinCnt - 1 = 0
      omega)⟩
    refine ⟨⟨Res.ok fr,
      fillFrame (updPool out1.state fr pg) f p fr,
      out1.events ++ [FileOp.readPage f p]⟩, fr, ?_, rfl⟩
    simp only [readPage, updDesc_hashTable, hnone, hout1, hok]

/-- Witness for C4: in the fully pinned one-frame pool `stPinned`,
`allocBuf` raises pool-exhausted, and after unpinning the resident page
(file 0, page 0) a fetch of the non-resident page (9, 9) succeeds. -/
theorem C4_exhaustion_witness :
    WF stPinned ∧
    (∃ out, allocBuf stPinned = some out ∧
       out.result = Res.err BufError.bufferExceeded) ∧
    (∃ out fr, readPage (unPinPage stPinned 0 0 false).state 9 9 ⟨9, 0⟩
        = some out ∧ out.result = Res.ok fr) := by
  have hWF : WF stPinned := ⟨by decide, by decide⟩
  have H := C4_exhaustion stPinned 9 9 0 0 0 ⟨9, 0⟩ hWF
  refine ⟨hWF, ?_, ?_⟩
  · exact H.1.mpr (by decide)
  · exact H.2.2 (by decide) (by decide) (by decide) (by decide) (by decide)

/-- C5: `unPinPage` on a non-resident page is a no-op returning no error;
on a resident page with pin count zero it raises the not-pinned error and
leaves the state unchanged (in particular the dirty bit stays clear even
when asked to mark dirty); otherwise it decrements the pin count by one,
sets the dirty bit when `mark_dirty` is true, keeps it when already set
(never clears it), and changes nothing else. -/
theorem C5_unpin (st : BufMgr) (f p : Nat) (d : Bool) :
    (st.hashTable (some f) p = none →
      unPinPage st f p d = ⟨Res.ok (), st, []⟩) ∧
    (∀ fr, st.hashTable (some f) p = some fr →
      (st.bufDescTable fr).pinCnt = 0 →
      unPinPage st f p d = ⟨Res.err (BufError.pageNotPinned f p fr), st, []⟩) ∧
    (∀ fr, st.hashTable (some f) p = some fr →
      0 < (st.bufDescTable fr).pinCnt →
      (unPinPage st f p d).result = Res.ok () ∧
      (unPinPage st f p d).events = [] ∧
      (unPinPage st f p d).state.hashTable = st.hashTable ∧
      (unPinPage st f p d).state.bufDescTable fr
        = { st.bufDescTable fr with
            pinCnt := (st.bufDescTable fr).pinCnt - 1,
            dirty := if d then true else (st.bufDescTable fr).dirty } ∧
      (∀ j, j ≠ fr →
        (unPinPage st f p d).state.bufDescTable j = st.bufDescTable j) ∧
      ((st.bufDescTable fr).dirty = true →
        ((unPinPage st f p d).state.bufDescTable fr).dirty = true)) := by
  refine ⟨?_, ?_, ?_⟩
  · intro h
    simp only [unPinPage, h]
  · intro fr h hp
    simp only [unPinPage, h]
    rw [if_pos hp]
  · intro fr h hp
    have hp0 : ¬ (st.bufDescTable fr).pinCnt = 0 := by omega
    have hu : unPinPage st f p d
        = ⟨Res.ok (), updDesc st fr { st.bufDescTable fr with
            pinCnt := (st.bufDescTable fr).pinCnt - 1,
            dirty := if d then true else (st.bufDescTable fr).dirty }, []⟩ := by
      simp only [unPinPage, h]
      rw [if_neg hp0]
    rw [hu]
    refine ⟨rfl, rfl, rfl, by simp, ?_, ?_⟩
    · intro j hj
      simp [hj]
    · intro hd
      cases d <;> simp [hd]

/-- Witness for C5: releasing the single pin of the resident page of
`stPinned` succeeds. -/
theorem C5_unpin_witness :
    stPinned.hashTable (some 0) 0 = some 0 ∧
    0 < (stPinned.bufDescTable 0).pinCnt ∧
    (unPinPage stPinned 0 0 true).result = Res.ok () :=
  ⟨by decide, by decide,
    ((C5_unpin stPinned 0 0 true).2.2 0 (by decide) (by decide)).1⟩

/-- C6: `flushFile` scans frames in ascending order.  If no frame owned by
the file is pinned or invalid, it succeeds, clears every owned frame's
descriptor and hash entry, leaves other frames untouched, and its write
trace is exactly one ascending write per owned dirty frame.  If some owned
frame is pinned or invalid, the call raises on the first such frame —
page-still-pinned when pinned, corrupt-descriptor otherwise — having
processed exactly the owned frames before it and leaving that frame and
all later frames untouched. -/
theorem C6_flush (st : BufMgr) (f : Nat) :
    ((∀ j, j < st.numBufs → ¬ ((st.bufDescTable j).file = some f ∧
        (0 < (st.bufDescTable j).pinCnt ∨ (st.bufDescTable j).valid = false))) →
      (flushFile st f).result = Res.ok () ∧
      (∀ j, j < st.numBufs → (st.bufDescTable j).file = some f →
        (flushFile st f).state.bufDescTable j = BufDesc.clear ∧
        (flushFile st f).state.hashTable (some f) ((st.bufDescTable j).pageNo)
          = none) ∧
      (∀ j, ¬ (st.bufDescTable j).file = some f →
        (flushFile st f).state.bufDescTable j = st.bufDescTable j) ∧
      (flushFile st f).events = writeList st f 0 st.numBufs) ∧
    (∀ j0, j0 < st.numBufs →
      ((st.bufDescTable j0).file = some f ∧
        (0 < (st.bufDescTable j0).pinCnt ∨ (st.bufDescTable j0).valid = false)) →
      (∀ j, j < j0 → ¬ ((st.bufDescTable j).file = some f ∧
        (0 < (st.bufDescTable j).pinCnt ∨ (st.bufDescTable j).valid = false))) →
      (flushFile st f).result =
        (if 0 < (st.bufDescTable j0).pinCnt
         then Res.err (BufError.pagePinned f (st.bufDescTable j0).pageNo j0)
         else Res.err (BufError.badBuffer j0 (st.bufDescTable j0).dirty
                (st.bufDescTable j0).valid (st.bufDescTable j0).refbit)) ∧
      (∀ j, j0 ≤ j → (flushFile st f).state.bufDescTable j = st.bufDescTable j) ∧
      (∀ j, j < j0 → (st.bufDescTable j).file = some f →
        (flushFile st f).state.bufDescTable j = BufDesc.clear ∧
        (flushFile st f).state.hashTable (some f) ((st.bufDescTable j).pageNo)
          = none) ∧
      (flushFile st f).events = writeList st f 0 j0) := by
  constructor
  · intro hclean
    obtain ⟨h1, h2, h3, _, h5⟩ := flushAux_clean f st.numBufs 0 st []
      (fun j _ hj2 => hclean j (by omega))
    refine ⟨h1, ?_, ?_, ?_⟩
    · intro j hj hm
      exact h2 j (by omega) (by omega) hm
    · intro j hm
      exact h3 j (Or.inr (Or.inr hm))
    · show (flushFileAux f 0 st.numBufs st []).events = writeList st f 0 st.numBufs
      rw [h5]
      exact List.nil_append _
  · intro j0 hj0 hoff hpre
    obtain ⟨h1, h2, h3, _, _, h6⟩ := flushAux_offend f st.numBufs 0 st [] j0
      (by omega) (by omega) hoff (fun j _ hj2 => hpre j hj2)
    refine ⟨h1, h2, ?_, ?_⟩
    · intro j hj hm
      exact h3 j (by omega) hj hm
    · show (flushFileAux f 0 st.numBufs st []).events = writeList st f 0 j0
      rw [h6]
      rw [show j0 - 0 = j0 from rfl]
      exact List.nil_append _

/-- Witness for C6: flushing file 0 of `stPinned` raises the
page-still-pinned error on frame 0. -/
theorem C6_flush_witness :
    ((stPinned.bufDescTable 0).file = some 0 ∧
      (0 < (stPinned.bufDescTable 0).pinCnt ∨
        (stPinned.bufDescTable 0).valid = false)) ∧
    (flushFile stPinned 0).result = Res.err (BufError.pagePinned 0 0 0) := by
  refine ⟨⟨by decide, Or.inl (by decide)⟩, ?_⟩
  have H := (C6_flush stPinned 0).2 0 (by decide) ⟨by decide, Or.inl (by decide)⟩
    (by omega)
  exact H.1

/-- C7: `disposePage` never raises an error and always instructs the file
to delete the page (and performs no physical write: the trace is exactly
the delete call).  On a resident page — even a dirty one — it removes the
hash entry and clears the frame descriptor, discarding the content,
leaving all other frames and hash entries unchanged; on a non-resident
page the pool state is untouched.  With respect to pool state the call is
idempotent.  In the source the index removal and descriptor clearing
precede the `file->deletePage` call. -/
theorem C7_dispose (st : BufMgr) (f p : Nat) :
    (disposePage st f p).result = Res.ok () ∧
    (disposePage st f p).events = [FileOp.deletePage f p] ∧
    (∀ fr, st.hashTable (some f) p = some fr →
      (disposePage st f p).state.hashTable (some f) p = none ∧
      (disposePage st f p).state.bufDescTable fr = BufDesc.clear ∧
      (∀ j, j ≠ fr →
        (disposePage st f p).state.bufDescTable j = st.bufDescTable j) ∧
      (∀ fk pk, ¬ (fk = some f ∧ pk = p) →
        (disposePage st f p).state.hashTable fk pk = st.hashTable fk pk)) ∧
    (st.hashTable (some f) p = none → (disposePage st f p).state = st) ∧
    (disposePage (disposePage st f p).state f p).state
      = (disposePage st f p).state := by
  refine ⟨?_, ?_, ?_, ?_, ?_⟩
  · unfold disposePage
    cases st.hashTable (some f) p <;> rfl
  · unfold disposePage
    cases st.hashTable (some f) p <;> rfl
  · intro fr hl
    simp only [disposePage, hl]
    refine ⟨by simp, by simp, ?_, ?_⟩
    · intro j hj
      simp [hj]
    · intro fk pk hk
      simp [hk]
  · intro hl
    simp only [disposePage, hl]
  · cases hl : st.hashTable (some f) p with
    | none =>
      simp only [disposePage, hl]
    | some fr =>
      have h1 : (disposePage st f p).state
          = clearDesc (hashRemove st (some f) p) fr := by
        simp only [disposePage, hl]
      rw [h1]
      have h2 : (clearDesc (hashRemove st (some f) p) fr).hashTable (some f) p
          = none := by simp
      simp only [disposePage, h2]

/-- Witness for C7 at the resident dirty page of `stDirty`. -/
theorem C7_dispose_witness :
    stDirty.hashTable (some 3) 7 = some 0 ∧
    (disposePage stDirty 3 7).state.bufDescTable 0 = BufDesc.clear ∧
    (disposePage stDirty 3 7).events = [FileOp.deletePage 3 7] :=
  ⟨by decide, ((C7_dispose stDirty 3 7).2.2.1 0 (by decide)).2.1,
    (C7_dispose stDirty 3 7).2.1⟩

/-- C8, counterexample: the claim says `allocPage` first asks the file for
a fresh page identity and only then invokes the clock allocator, so the
`allocatePage` call would be the first external action.  On `stDirty`,
whose only frame holds a dirty victim, the trace of `allocPage` is the
eviction write followed by `allocatePage`: the allocator runs first. -/
theorem C8_order_cex :
    ((allocPage stDirty 7 ⟨9, 0⟩).map fun o => o.events)
      = some [FileOp.writePage (some 3) ⟨7, 42⟩, FileOp.allocatePage 7] ∧
    FileOp.writePage (some 3) ⟨7, 42⟩ ≠ FileOp.allocatePage 7 :=
  ⟨by decide, by decide⟩

/-- C8, amended: `allocPage` first invokes the clock allocator, then asks
the file to allocate a fresh page (its trace is the allocator's trace
followed by the `allocatePage` call), and before returning completes both
the hash-table insertion and the descriptor update for the returned
frame, so no partial completion leaves an orphaned index entry. -/
theorem C8_alloc_order (st : BufMgr) (f : Nat) (npg : Page)
    (out : Outcome (Nat × Nat)) (pno fr : Nat)
    (h : allocPage st f npg = some out)
    (hres : out.result = Res.ok (pno, fr)) :
    (∃ a, allocBuf st = some a ∧ a.result = Res.ok fr ∧
      out.events = a.events ++ [FileOp.allocatePage f]) ∧
    pno = npg.page_number ∧
    out.state.hashTable (some f) pno = some fr ∧
    out.state.bufDescTable fr = BufDesc.set f pno := by
  unfold allocPage at h
  cases ha : allocBuf st with
  | none => rw [ha] at h; cases h
  | some a =>
    simp only [ha] at h
    cases hr : a.result with
    | err e =>
      simp only [hr] at h
      cases h
      cases hres
    | ok fr2 =>
      simp only [hr] at h
      cases h
      have h3 : Res.ok (α := Nat × Nat) (npg.page_number, fr2)
          = Res.ok (pno, fr) := hres
      obtain ⟨h4, h5⟩ : npg.page_number = pno ∧ fr2 = fr := by
        cases h3
        exact ⟨rfl, rfl⟩
      subst h4
      subst h5
      refine ⟨⟨a, rfl, hr, rfl⟩, rfl, ?_, ?_⟩
      · simp [fillFrame]
      · simp [fillFrame]

/-- Witness for the amended C8 on the empty pool `stEmpty`. -/
theorem C8_alloc_order_witness :
    ∃ out, allocPage stEmpty 7 ⟨9, 0⟩ = some out ∧
      out.result = Res.ok (9, 1) ∧
      out.state.hashTable (some 7) 9 = some 1 ∧
      out.state.bufDescTable 1 = BufDesc.set 7 9 := by
  refine ⟨_, rfl, rfl, ?_, ?_⟩
  · exact (C8_alloc_order stEmpty 7 ⟨9, 0⟩ _ 9 1 rfl rfl).2.2.1
  · exact (C8_alloc_order stEmpty 7 ⟨9, 0⟩ _ 9 1 rfl rfl).2.2.2

theorem IdxInv_stDirty : IdxInv stDirty := by
  constructor
  · intro f p i hi
    by_cases hk : f = some 3 ∧ p = 7
    · have h2 : stDirty.hashTable f p = some 0 := by
        show (if f = some 3 ∧ p = 7 then some 0 else none) = some 0
        rw [if_pos hk]
      rw [h2] at hi
      cases hi
      refine ⟨by decide, by decide, ?_, ?_⟩
      · rw [hk.1]; rfl
      · rw [hk.2]; rfl
    · have h2 : stDirty.hashTable f p = none := by
        show (if f = some 3 ∧ p = 7 then some 0 else none) = none
        rw [if_neg hk]
      rw [h2] at hi
      cases hi
  · intro i hi _
    have hi0 : i = 0 := by
      have : i < 1 := hi
      omega
    subst hi0
    decide

/-- C9: from any well-formed state satisfying the index/descriptor
agreement invariant — a hash entry `(f, p) → i` exists iff frame `i` is in
range with a valid descriptor owning exactly `(f, p)` — every operation of
the manager preserves the invariant: `allocBuf` (including each eviction
and the pool-exhausted outcome), `readPage`, `unPinPage`, `allocPage`
(given the file returns a page identity not currently resident),
`flushFile` and `disposePage`. -/
theorem C9_invariant (st : BufMgr) (hWF : WF st) (hInv : IdxInv st) :
    (∀ out, allocBuf st = some out → IdxInv out.state) ∧
    (∀ f p pg out, readPage st f p pg = some out → IdxInv out.state) ∧
    (∀ f p d, IdxInv (unPinPage st f p d).state) ∧
    (∀ f npg out, st.hashTable (some f) npg.page_number = none →
      allocPage st f npg = some out → IdxInv out.state) ∧
    (∀ f, IdxInv (flushFile st f).state) ∧
    (∀ f p, IdxInv (disposePage st f p).state) := by
  refine ⟨?_, ?_, ?_, ?_, ?_, ?_⟩
  · intro out h
    exact IdxInv_loop st.clockHand (2 * st.numBufs) false st out hWF.2 hInv h
  · intro f p pg out h
    exact IdxInv_readPage st f p pg out hWF hInv h
  · intro f p d
    exact IdxInv_unPin st f p d hInv
  · intro f npg out hfresh h
    exact IdxInv_allocPage st f npg out hWF hInv hfresh h
  · intro f
    exact IdxInv_flushAux f st.numBufs 0 st [] (by omega) hInv
  · intro f p
    exact IdxInv_dispose st f p hInv

/-- Witness for C9 at the concrete state `stDirty`, which satisfies the
invariant, applied to `disposePage`. -/
theorem C9_invariant_witness :
    WF stDirty ∧ IdxInv stDirty ∧ IdxInv (disposePage stDirty 3 7).state :=
  ⟨⟨by decide, by decide⟩, IdxInv_stDirty,
    (C9_invariant stDirty ⟨by decide, by decide⟩ IdxInv_stDirty).2.2.2.2.2 3 7⟩

/-- C10: `disposePage` on a resident page whose pin count is positive
succeeds without any error: it removes the hash entry, clears the frame
descriptor — resetting the pin count to zero — and instructs the file to
delete the page, despite the outstanding pins. -/
theorem C10_dispose_pinned (st : BufMgr) (f p fr : Nat)
    (hl : st.hashTable (some f) p = some fr)
    (hpin : 0 < (st.bufDescTable fr).pinCnt) :
    (disposePage st f p).result = Res.ok () ∧
    (disposePage st f p).events = [FileOp.deletePage f p] ∧
    (disposePage st f p).state.hashTable (some f) p = none ∧
    (disposePage st f p).state.bufDescTable fr = BufDesc.clear ∧
    ((disposePage st f p).state.bufDescTable fr).pinCnt = 0 := by
  simp [disposePage, hl, BufDesc.clear]

/-- Witness for C10: disposing the pinned resident page (0, 0) of
`stPinned` resets its pin count to zero without error. -/
theorem C10_dispose_pinned_witness :
    stPinned.hashTable (some 0) 0 = some 0 ∧
    0 < (stPinned.bufDescTable 0).pinCnt ∧
    ((disposePage stPinned 0 0).state.bufDescTable 0).pinCnt = 0 :=
  ⟨by decide, by decide,
    (C10_dispose_pinned stPinned 0 0 0 (by decide) (by decide)).2.2.2.2⟩
